import Mathlib

/-!
Verification development for the mini-agi repository.

This file shallowly embeds the streaming session controller of the
repository: the session transcript store (src/session/transcript.ts),
the task memory store and touch correlator (src/memory/tasks.ts), the
rich-text formatter, truncation and message-edit logic of the Telegram
renderer (src/interfaces/telegram.ts), the turn handler of the same
file, and the push-to-pull event bridge (src/agent/agent.ts).

JavaScript strings are modelled as Lean `String` / `List Char`;
JavaScript numbers holding timestamps as `Nat` or `Int`; JSON values
as the inductive `JVal`.  `localeCompare` on ISO-8601 timestamp
strings is modelled as lexicographic comparison of code points, and
`Array.prototype.sort` (stable since ES2019) as a stable insertion
sort with the same comparator.
-/

set_option maxHeartbeats 1000000
set_option maxRecDepth 10000

/-! ### Generic helpers -/

/-- JavaScript `String.prototype.trim`: strip leading and trailing
whitespace. -/
def jsTrim (s : String) : String :=
  String.mk (((s.data.dropWhile Char.isWhitespace).reverse.dropWhile
    Char.isWhitespace).reverse)

/-- JavaScript `String.prototype.toLowerCase`, modelled per character. -/
def jsToLower (s : String) : String := String.mk (s.data.map Char.toLower)

/-- Index of the first occurrence of `pat` in `l`, as JavaScript
`String.prototype.indexOf` (searching from the start of `l`). -/
def findSub (pat : List Char) : List Char → Option Nat
  | [] => if pat = [] then some 0 else none
  | c :: rest =>
    if pat.isPrefixOf (c :: rest) then some 0
    else (findSub pat rest).map (· + 1)

/-- JavaScript `String.prototype.includes`. -/
def strIncludes (s pat : String) : Bool := (findSub pat.data s.data).isSome

/-- Stable insertion of `x` into a list sorted descending by `key`:
`x` is placed after every element whose key is `≥ key x`, mirroring a
stable sort with comparator `(a, b) => b.key.localeCompare(a.key)`. -/
def insertDesc (key : α → String) (x : α) : List α → List α
  | [] => [x]
  | y :: ys => if key y < key x then x :: y :: ys else y :: insertDesc key x ys

/-- Stable sort, descending by `key`; models
`arr.sort((a, b) => b.key.localeCompare(a.key))` for a stable engine
sort and lexicographic collation. -/
def sortByDesc (key : α → String) (l : List α) : List α :=
  l.foldl (fun acc x => insertDesc key x acc) []

theorem insertDesc_perm (key : α → String) (x : α) (l : List α) :
    List.Perm (insertDesc key x l) (x :: l) := by
  induction l with
  | nil => simp [insertDesc]
  | cons y ys ih =>
    by_cases h : key y < key x
    · simp [insertDesc, h]
    · simp only [insertDesc, if_neg h]
      exact List.Perm.trans (List.Perm.cons y ih) (List.Perm.swap x y ys)

theorem foldl_insertDesc_perm (key : α → String) (l : List α) :
    ∀ acc : List α,
      List.Perm (l.foldl (fun acc x => insertDesc key x acc) acc) (l.reverse ++ acc) := by
  induction l with
  | nil => intro acc; simp
  | cons y ys ih =>
    intro acc
    have h2 : List.Perm (insertDesc key y acc) (y :: acc) := insertDesc_perm key y acc
    have h3 := (ih (insertDesc key y acc)).trans (List.Perm.append_left ys.reverse h2)
    have h4 : (y :: ys).reverse ++ acc = ys.reverse ++ (y :: acc) := by simp
    rw [List.foldl_cons, h4]
    exact h3

theorem sortByDesc_perm (key : α → String) (l : List α) :
    List.Perm (sortByDesc key l) l := by
  have h := foldl_insertDesc_perm key l []
  rw [List.append_nil] at h
  exact (h.trans (List.reverse_perm l))

theorem mem_sortByDesc (key : α → String) (l : List α) (x : α) :
    x ∈ sortByDesc key l ↔ x ∈ l :=
  (sortByDesc_perm key l).mem_iff

/-- Descending sortedness (each element's key is `≥` every later key). -/
def SortedDescBy (key : α → String) (l : List α) : Prop :=
  List.Pairwise (fun a b => key b ≤ key a) l

theorem insertDesc_sorted (key : α → String) (x : α) (l : List α)
    (h : SortedDescBy key l) : SortedDescBy key (insertDesc key x l) := by
  induction l with
  | nil =>
    rw [insertDesc]
    exact List.pairwise_singleton _ x
  | cons y ys ih =>
    rw [SortedDescBy, List.pairwise_cons] at h
    obtain ⟨hy, hys⟩ := h
    by_cases hxy : key y < key x
    · rw [insertDesc, if_pos hxy, SortedDescBy, List.pairwise_cons]
      refine ⟨?_, List.pairwise_cons.mpr ⟨hy, hys⟩⟩
      intro b hb
      rcases List.mem_cons.mp hb with hb | hb
      · rw [hb]; exact le_of_lt hxy
      · exact le_trans (hy b hb) (le_of_lt hxy)
    · rw [insertDesc, if_neg hxy, SortedDescBy, List.pairwise_cons]
      refine ⟨?_, ih hys⟩
      intro b hb
      rcases List.mem_cons.mp ((insertDesc_perm key x ys).mem_iff.mp hb) with hb | hb
      · rw [hb]; exact le_of_not_lt hxy
      · exact hy b hb

theorem foldl_insertDesc_sorted (key : α → String) (l : List α) :
    ∀ acc : List α, SortedDescBy key acc →
      SortedDescBy key (l.foldl (fun acc x => insertDesc key x acc) acc) := by
  induction l with
  | nil => intro acc hacc; exact hacc
  | cons y ys ih =>
    intro acc hacc
    exact ih _ (insertDesc_sorted key y acc hacc)

theorem sortByDesc_sorted (key : α → String) (l : List α) :
    SortedDescBy key (sortByDesc key l) :=
  foldl_insertDesc_sorted key l [] List.Pairwise.nil

/-! ### Association-list model of JavaScript `Map`

`Map.set` updates an existing key in place (keeping its insertion
position) or appends a new binding at the end; `Map.get` looks a key
up; `Map.delete` removes a binding.  Iteration (`Map.values`) follows
insertion order, which the association list preserves. -/

def setAssoc [DecidableEq κ] (k : κ) (v : α) : List (κ × α) → List (κ × α)
  | [] => [(k, v)]
  | (k1, v1) :: rest =>
    if k1 = k then (k, v) :: rest else (k1, v1) :: setAssoc k v rest

def getAssoc [DecidableEq κ] (k : κ) : List (κ × α) → Option α
  | [] => none
  | (k1, v1) :: rest => if k1 = k then some v1 else getAssoc k rest

def removeAssoc [DecidableEq κ] (k : κ) : List (κ × α) → List (κ × α)
  | [] => []
  | (k1, v1) :: rest =>
    if k1 = k then rest else (k1, v1) :: removeAssoc k rest

theorem getAssoc_setAssoc [DecidableEq κ] (k k1 : κ) (v : α) (l : List (κ × α)) :
    getAssoc k1 (setAssoc k v l) = if k1 = k then some v else getAssoc k1 l := by
  induction l with
  | nil =>
    by_cases h : k1 = k
    · simp only [setAssoc, getAssoc, if_pos h.symm, if_pos h]
    · have h2 : ¬ k = k1 := fun hh => h hh.symm
      simp only [setAssoc, getAssoc, if_neg h2, if_neg h]
  | cons p rest ih =>
    obtain ⟨ka, va⟩ := p
    by_cases hk : ka = k
    · subst hk
      by_cases h : k1 = ka
      · subst h
        simp [setAssoc, getAssoc]
      · have h2 : ¬ ka = k1 := fun hh => h hh.symm
        simp only [setAssoc, if_pos rfl, getAssoc, if_neg h2, if_neg h]
    · simp only [setAssoc, if_neg hk, getAssoc, ih]
      by_cases h2 : ka = k1
      · subst h2
        have h3 : ¬ ka = k := hk
        simp only [if_pos rfl, if_neg (fun hh => h3 hh)]
      · simp only [if_neg h2]

theorem getAssoc_eq_none_of_not_mem [DecidableEq κ] (k : κ) (l : List (κ × α))
    (h : k ∉ l.map Prod.fst) : getAssoc k l = none := by
  induction l with
  | nil => rfl
  | cons p rest ih =>
    obtain ⟨ka, va⟩ := p
    rw [List.map_cons, List.mem_cons] at h
    have h1 : ¬ ka = k := fun hh => h (Or.inl hh.symm)
    rw [getAssoc, if_neg h1]
    exact ih (fun hh => h (Or.inr hh))

theorem not_mem_keys_removeAssoc [DecidableEq κ] (k : κ) (l : List (κ × α))
    (hnd : (l.map Prod.fst).Nodup) : k ∉ (removeAssoc k l).map Prod.fst := by
  induction l with
  | nil => simp [removeAssoc]
  | cons p rest ih =>
    obtain ⟨ka, va⟩ := p
    rw [List.map_cons, List.nodup_cons] at hnd
    by_cases hk : ka = k
    · subst hk
      rw [removeAssoc, if_pos rfl]
      exact hnd.1
    · rw [removeAssoc, if_neg hk, List.map_cons]
      intro hmem
      rcases List.mem_cons.mp hmem with h | h
      · exact hk h.symm
      · exact ih hnd.2 h

theorem getAssoc_removeAssoc_self [DecidableEq κ] (k : κ) (l : List (κ × α))
    (hnd : (l.map Prod.fst).Nodup) : getAssoc k (removeAssoc k l) = none :=
  getAssoc_eq_none_of_not_mem k _ (not_mem_keys_removeAssoc k l hnd)

theorem setAssoc_keys [DecidableEq κ] (k : κ) (v : α) (l : List (κ × α)) :
    ((setAssoc k v l).map Prod.fst) =
      if k ∈ l.map Prod.fst then l.map Prod.fst else l.map Prod.fst ++ [k] := by
  induction l with
  | nil => simp [setAssoc]
  | cons p rest ih =>
    obtain ⟨ka, va⟩ := p
    by_cases hk : ka = k
    · subst hk
      simp [setAssoc]
    · have hne : ¬ k = ka := fun hh => hk hh.symm
      by_cases hm : k ∈ rest.map Prod.fst <;>
        simp [setAssoc, hk, ih, hm, hne]

theorem setAssoc_keys_nodup [DecidableEq κ] (k : κ) (v : α) (l : List (κ × α))
    (hnd : (l.map Prod.fst).Nodup) : ((setAssoc k v l).map Prod.fst).Nodup := by
  rw [setAssoc_keys]
  by_cases hm : k ∈ l.map Prod.fst
  · rw [if_pos hm]; exact hnd
  · rw [if_neg hm]
    refine List.Nodup.append hnd (List.nodup_singleton k) ?_
    intro x hx hx2
    rw [List.mem_singleton] at hx2
    subst hx2
    exact hm hx

theorem mem_getAssoc_of_nodup [DecidableEq κ] (l : List (κ × α)) (k : κ) (v : α)
    (hnd : (l.map Prod.fst).Nodup) : (k, v) ∈ l ↔ getAssoc k l = some v := by
  induction l with
  | nil => simp [getAssoc]
  | cons p rest ih =>
    obtain ⟨ka, va⟩ := p
    rw [List.map_cons, List.nodup_cons] at hnd
    by_cases hk : ka = k
    · subst hk
      rw [getAssoc, if_pos rfl, List.mem_cons]
      constructor
      · rintro (h | h)
        · rw [Prod.mk.injEq] at h
          rw [h.2]
        · exact absurd (List.mem_map.mpr ⟨_, h, rfl⟩) hnd.1
      · intro h
        rw [Option.some.injEq] at h
        exact Or.inl (by rw [h])
    · have hne : ¬ (k, v) = (ka, va) := fun hh => hk (congrArg Prod.fst hh).symm
      rw [getAssoc, if_neg hk, List.mem_cons, ih hnd.2]
      constructor
      · rintro (h | h)
        · exact absurd h hne
        · exact h
      · intro h; exact Or.inr h

/-! ### JSON values

`JVal` models a parsed JavaScript JSON value (the result of
`JSON.parse`) and, more generally, a JavaScript object as inspected by
the renderer's recovery helpers.  Property access `o.k` is modelled by
`JVal.getField`; for objects built by `JSON.parse` a duplicated key
keeps its last value, which `assocLast` reflects. -/

inductive JVal where
  | null
  | bool (b : Bool)
  | num (n : Int)
  | str (s : String)
  | arr (elems : List JVal)
  | obj (fields : List (String × JVal))

def assocLast (k : String) : List (String × JVal) → Option JVal
  | [] => none
  | (k1, v) :: rest =>
    match assocLast k rest with
    | some r => some r
    | none => if k1 = k then some v else none

def JVal.getField : JVal → String → Option JVal
  | .obj fs, k => assocLast k fs
  | _, _ => none

/-! ### Session Transcript Store (src/session/transcript.ts)

`loadTranscript` reads the per-user JSONL file, splits it on newlines,
trims each line, drops blank lines, and then — inside a single
`try`/`catch` that also guards the file read — maps `JSON.parse` plus a
structural check over every remaining line, throwing on the first
malformed one; the `catch` turns any throw into `[]`.

The file content is modelled after the split/trim/drop-blank stage as a
list of per-line parse results: `some j` for a line whose `JSON.parse`
yields `j`, `none` for a line on which `JSON.parse` throws. -/

inductive Role where
  | user
  | assistant
deriving DecidableEq

structure TranscriptEntry where
  role : Role
  content : String
  timestamp : Int
deriving DecidableEq

/-- The structural check in `loadTranscript`'s `map` callback:
`parsed.role` must be `"user"` or `"assistant"`, `parsed.content` a
string and `parsed.timestamp` a number; on failure the callback throws
(`none` here). -/
def validateTranscriptLine (j : JVal) : Option TranscriptEntry :=
  match j.getField "role", j.getField "content", j.getField "timestamp" with
  | some (.str "user"), some (.str c), some (.num t) =>
    some { role := .user, content := c, timestamp := t }
  | some (.str "assistant"), some (.str c), some (.num t) =>
    some { role := .assistant, content := c, timestamp := t }
  | _, _, _ => none

/-- JavaScript `Array.prototype.map` with a callback that can throw:
the first throwing element aborts the whole map. -/
def mapStrict (f : α → Option β) : List α → Option (List β)
  | [] => some []
  | a :: as =>
    match f a with
    | none => none
    | some b => (mapStrict f as).map (b :: ·)

/-- `loadTranscript`, from the per-line parse results of the non-blank
trimmed lines.  The single surrounding `try`/`catch` makes the whole
load collapse to `[]` as soon as any single line fails to parse
(`none`) or fails the structural check. -/
def loadTranscript (lines : List (Option JVal)) : List TranscriptEntry :=
  match mapStrict (fun l => l.bind validateTranscriptLine) lines with
  | some entries => entries
  | none => []

/-- A well-formed transcript line used as concrete input. -/
def transcriptGoodLine : JVal :=
  .obj [("role", .str "user"), ("content", .str "hello"), ("timestamp", .num 1700000000000)]

/-- A malformed transcript line (role has the wrong value). -/
def transcriptBadLine : JVal :=
  .obj [("role", .str "system"), ("content", .str "x"), ("timestamp", .num 1)]

theorem mapStrict_eq_some_of_all (f : α → Option β) (l : List α)
    (h : ∀ a ∈ l, (f a).isSome) : mapStrict f l = some (l.filterMap f) := by
  induction l with
  | nil => rfl
  | cons a as ih =>
    have ha : (f a).isSome := h a (List.mem_cons_self a as)
    obtain ⟨b, hb⟩ := Option.isSome_iff_exists.mp ha
    simp [mapStrict, hb, ih (fun x hx => h x (List.mem_cons_of_mem a hx)),
      List.filterMap_cons]

theorem mapStrict_eq_none_of_bad (f : α → Option β) (l : List α)
    (h : ¬ ∀ a ∈ l, (f a).isSome) : mapStrict f l = none := by
  induction l with
  | nil => exact absurd (by intro a ha; cases ha) h
  | cons a as ih =>
    by_cases ha : (f a).isSome
    · obtain ⟨b, hb⟩ := Option.isSome_iff_exists.mp ha
      have has : ¬ ∀ x ∈ as, (f x).isSome := by
        intro hall
        exact h (by
          intro x hx
          rcases List.mem_cons.mp hx with hx | hx
          · rw [hx]; exact ha
          · exact hall x hx)
      simp [mapStrict, hb, ih has]
    · rw [Option.not_isSome_iff_eq_none] at ha
      simp [mapStrict, ha]

/-- C1 (corrected).  `loadTranscript` does not skip malformed lines
individually: the parse-and-validate map runs inside one `try`/`catch`,
so a file in which every non-blank line is well-formed loads all its
entries, while a file with any malformed line loads the empty list.
It never propagates an exception. -/
theorem loadTranscript_allOrNothing (lines : List (Option JVal)) :
    loadTranscript lines =
      if ∀ l ∈ lines, (l.bind validateTranscriptLine).isSome
      then lines.filterMap (fun l => l.bind validateTranscriptLine)
      else [] := by
  by_cases h : ∀ l ∈ lines, (l.bind validateTranscriptLine).isSome
  · rw [if_pos h, loadTranscript, mapStrict_eq_some_of_all _ _ h]
  · rw [if_neg h, loadTranscript, mapStrict_eq_none_of_bad _ _ h]

/-- C1 counterexample: a transcript file holding one well-formed entry
line and one malformed line (wrong role value) loads the empty list,
not the well-formed entry — the well-formed entry is lost. -/
theorem loadTranscript_mixed_counterexample :
    validateTranscriptLine transcriptGoodLine =
      some { role := .user, content := "hello", timestamp := 1700000000000 } ∧
    validateTranscriptLine transcriptBadLine = none ∧
    loadTranscript [some transcriptGoodLine, some transcriptBadLine] = [] ∧
    loadTranscript [some transcriptGoodLine, some transcriptBadLine] ≠
      [{ role := .user, content := "hello", timestamp := 1700000000000 }] := by
  refine ⟨rfl, rfl, rfl, ?_⟩
  decide

/-! ### Task Memory Store, index loading (src/memory/tasks.ts, loadTasks)

`loadTasks` reads the per-user index file, `JSON.parse`s it, filters
out entries whose `taskId`, `userId`, `title` or `status` is not a
string, and sorts by `updatedAt` descending, all inside one
`try`/`catch` returning `[]` on any throw.  The file is modelled as
`none` when reading or parsing throws, and `some j` when parsing
yields `j`.  The filter callback starts with `typeof t.taskId`:
property access on a `null` array entry throws a TypeError (JSON
cannot produce `undefined`, and every other JSON value tolerates
property access, yielding `undefined` and failing the `typeof` test),
and the `catch` turns that throw into `[]` for the whole load, not
into a per-entry drop. -/

def JVal.isNull : JVal → Bool
  | .null => true
  | _ => false

/-- `typeof j.k === "string"`, for a non-null receiver. -/
def isStrField (j : JVal) (k : String) : Bool :=
  match j.getField k with
  | some (.str _) => true
  | _ => false

/-- The filter callback of `loadTasks`: `none` models the TypeError
thrown by the property access `t.taskId` when the entry is `null`;
`some b` is the boolean the callback returns otherwise. -/
def hasTaskIndexFields (j : JVal) : Option Bool :=
  match j with
  | .null => none
  | _ => some (isStrField j "taskId" && isStrField j "userId" &&
      isStrField j "title" && isStrField j "status")

/-- Sort key of `loadTasks`' comparator
`(a, b) => b.updatedAt.localeCompare(a.updatedAt)`.  A surviving entry
whose `updatedAt` is not a string makes the JavaScript comparator
behaviour engine-dependent (an `undefined` receiver throws, an
`undefined` argument is coerced); the default `""` here is only
exercised outside the hypotheses of the theorems below. -/
def updatedAtKey (j : JVal) : String :=
  match j.getField "updatedAt" with
  | some (.str s) => s
  | _ => ""

/-- `Array.prototype.filter` with a callback that may throw: the first
throw aborts the whole call and no partial result survives. -/
def filterStrict (p : JVal → Option Bool) : List JVal → Option (List JVal)
  | [] => some []
  | t :: ts =>
    match p t with
    | none => none
    | some b =>
      match filterStrict p ts with
      | none => none
      | some rest => some (if b then t :: rest else rest)

/-- `loadTasks`, at the JSON level.  `none` models a missing or
unparsable file; a parsed non-array value makes `.filter` throw; a
thrown filter callback aborts the filter — in every such case the
`catch` yields `[]`. -/
def loadTasksJson : Option JVal → List JVal
  | some (.arr es) =>
    match filterStrict hasTaskIndexFields es with
    | some kept => sortByDesc updatedAtKey kept
    | none => []
  | _ => []

theorem filterStrict_eq_none (p : JVal → Option Bool) (es : List JVal)
    (h : ∃ t ∈ es, p t = none) : filterStrict p es = none := by
  induction es with
  | nil => obtain ⟨t, ht, _⟩ := h; cases ht
  | cons t ts ih =>
    obtain ⟨u, hu, hpu⟩ := h
    rcases List.mem_cons.mp hu with rfl | hu2
    · rw [filterStrict, hpu]
    · cases hpt : p t with
      | none => rw [filterStrict, hpt]
      | some b =>
        rw [filterStrict, hpt, ih ⟨u, hu2, hpu⟩]

theorem filterStrict_eq_some (p : JVal → Option Bool) (es : List JVal)
    (h : ∀ t ∈ es, (p t).isSome = true) :
    filterStrict p es = some (es.filter (fun t => (p t).getD false)) := by
  induction es with
  | nil => rfl
  | cons t ts ih =>
    have ht : (p t).isSome = true := h t (List.mem_cons_self t ts)
    cases hpt : p t with
    | none => rw [hpt] at ht; cases ht
    | some b =>
      rw [filterStrict, hpt, ih (fun u hu => h u (List.mem_cons_of_mem t hu))]
      rw [List.filter_cons]
      cases b with
      | true => simp [hpt]
      | false => simp [hpt]

/-- C10 (corrected).  Loading the task index never fails with an
exception, but a `null` array entry is not "silently dropped": a
missing or unparsable index file and a parsed non-array yield `[]`;
an index array holding any `null` entry also yields `[]` as a whole,
because the filter callback's property access throws and the `catch`
discards the entire load; and only when every entry is non-null are
exactly the entries lacking a string `taskId`, `userId`, `title` or
`status` dropped, with the survivors returned ordered by `updatedAt`
descending.  The `hupd` hypothesis (every survivor carries a string
`updatedAt`) marks the boundary where the JavaScript comparator is
well defined. -/
theorem loadTasks_tolerance (es : List JVal)
    (hupd : ∀ j ∈ es.filter (fun t => (hasTaskIndexFields t).getD false),
      isStrField j "updatedAt" = true) :
    (loadTasksJson none = [] ∧
      (∀ v : JVal, (∀ l : List JVal, v ≠ .arr l) → loadTasksJson (some v) = [])) ∧
    ((∃ t ∈ es, t.isNull = true) → loadTasksJson (some (.arr es)) = []) ∧
    ((∀ t ∈ es, t.isNull = false) →
      (∀ j, j ∈ loadTasksJson (some (.arr es)) ↔
        (j ∈ es ∧ hasTaskIndexFields j = some true)) ∧
      SortedDescBy updatedAtKey (loadTasksJson (some (.arr es)))) := by
  refine ⟨⟨rfl, ?_⟩, ?_, ?_⟩
  · intro v hv
    cases v with
    | null => rfl
    | bool b => rfl
    | num n => rfl
    | str s => rfl
    | arr l => exact absurd rfl (hv l)
    | obj fs => rfl
  · intro hnull
    obtain ⟨t, ht, htn⟩ := hnull
    have hthrow : hasTaskIndexFields t = none := by
      cases t with
      | null => rfl
      | bool b => cases htn
      | num n => cases htn
      | str s => cases htn
      | arr l => cases htn
      | obj fs => cases htn
    rw [loadTasksJson, filterStrict_eq_none hasTaskIndexFields es ⟨t, ht, hthrow⟩]
  · intro hnonull
    have hok : ∀ t ∈ es, (hasTaskIndexFields t).isSome = true := by
      intro t ht
      cases t with
      | null => cases hnonull JVal.null ht
      | bool b => rfl
      | num n => rfl
      | str s => rfl
      | arr l => rfl
      | obj fs => rfl
    have hgd : ∀ o : Option Bool, (o.getD false = true) ↔ o = some true := by
      intro o
      cases o with
      | none => simp
      | some b => cases b <;> simp
    refine ⟨?_, ?_⟩
    · intro j
      rw [loadTasksJson, filterStrict_eq_some hasTaskIndexFields es hok]
      rw [mem_sortByDesc, List.mem_filter, hgd (hasTaskIndexFields j)]
    · rw [loadTasksJson, filterStrict_eq_some hasTaskIndexFields es hok]
      exact sortByDesc_sorted _ _

/-- Concrete survivor for the C10 witness and counterexample. -/
def taskJsonGood : JVal :=
  .obj [("taskId", .str "task_1"), ("userId", .str "u1"), ("title", .str "A"),
    ("status", .str "active"), ("updatedAt", .str "2024-02-01T00:00:00.000Z")]

/-- Concrete second survivor, older `updatedAt`. -/
def taskJsonOld : JVal :=
  .obj [("taskId", .str "task_0"), ("userId", .str "u1"), ("title", .str "B"),
    ("status", .str "completed"), ("updatedAt", .str "2024-01-01T00:00:00.000Z")]

/-- Concrete dropped entry (numeric `taskId`). -/
def taskJsonBad : JVal :=
  .obj [("taskId", .num 7), ("userId", .str "u1"), ("title", .str "C"),
    ("status", .str "active"), ("updatedAt", .str "2024-03-01T00:00:00.000Z")]

/-- C10 counterexample: an index file holding a `null` entry alongside
a fully well-formed record does not drop just the `null` entry — the
filter callback throws on it and the whole load returns `[]`, losing
the record that passes the field check (the same index without the
`null` entry returns that record). -/
theorem loadTasks_null_entry_counterexample :
    hasTaskIndexFields taskJsonGood = some true ∧
    loadTasksJson (some (.arr [taskJsonGood])) = [taskJsonGood] ∧
    loadTasksJson (some (.arr [JVal.null, taskJsonGood])) = [] ∧
    loadTasksJson (some (.arr [JVal.null, taskJsonGood])) ≠ [taskJsonGood] := by
  refine ⟨rfl, rfl, rfl, ?_⟩
  intro h
  have h2 : ([] : List JVal) = [taskJsonGood] := h
  cases h2

/-- Witness for C10 at a concrete three-entry index. -/
theorem loadTasks_tolerance_witness :
    (loadTasksJson none = [] ∧
      (∀ v : JVal, (∀ l : List JVal, v ≠ .arr l) → loadTasksJson (some v) = [])) ∧
    ((∃ t ∈ [taskJsonOld, taskJsonBad, taskJsonGood], t.isNull = true) →
      loadTasksJson (some (.arr [taskJsonOld, taskJsonBad, taskJsonGood])) = []) ∧
    ((∀ t ∈ [taskJsonOld, taskJsonBad, taskJsonGood], t.isNull = false) →
      (∀ j, j ∈ loadTasksJson (some (.arr [taskJsonOld, taskJsonBad, taskJsonGood])) ↔
        (j ∈ [taskJsonOld, taskJsonBad, taskJsonGood] ∧
          hasTaskIndexFields j = some true)) ∧
      SortedDescBy updatedAtKey
        (loadTasksJson (some (.arr [taskJsonOld, taskJsonBad, taskJsonGood])))) :=
  loadTasks_tolerance [taskJsonOld, taskJsonBad, taskJsonGood] (by decide)

/-! ### Task Memory Store, upsert (src/memory/tasks.ts, upsertTask)

`upsertTask` loads the user's index, looks the supplied `taskId` up
(only when it is a truthy, i.e. non-empty, string), then either mutates
the found record in place (merging only the provided fields and
bumping `updatedAt`/`lastWorkedAt`) or pushes a newly built record,
and rewrites the whole index.  Records are modelled in their typed
form, so `loadTasks`' string-typeof filter is the identity and only
its `updatedAt`-descending sort remains.  `generateTaskId`'s output —
built from the current time in base 36 and a random suffix, with no
check against the existing index — enters as the `freshId` argument,
and `new Date().toISOString()` as the `timestamp` argument. -/

inductive TaskStatus where
  | active
  | blocked
  | completed
deriving DecidableEq

inductive TaskPriority where
  | low
  | medium
  | high
deriving DecidableEq

structure TaskRecord where
  taskId : String
  userId : String
  title : String
  status : TaskStatus
  priority : TaskPriority
  summary : String
  createdAt : String
  updatedAt : String
  lastWorkedAt : String
deriving DecidableEq

structure UpsertTaskInput where
  userId : String
  taskId : Option String
  title : Option String
  status : Option TaskStatus
  priority : Option TaskPriority
  summary : Option String
deriving DecidableEq

/-- `generateTaskId`: `task_` + epoch milliseconds in base 36 + `_` +
a random base-36 suffix.  Time and randomness are inputs. -/
def generateTaskId (tsBase36 rand : String) : String :=
  "task_" ++ tsBase36 ++ "_" ++ rand

/-- In-place mutation of the first array element satisfying `p`
(the object found by `Array.prototype.find` is mutated, keeping its
position in the array that is then saved wholesale). -/
def replaceFirst (p : α → Bool) (x : α) : List α → List α
  | [] => []
  | y :: ys => if p y then x :: ys else y :: replaceFirst p x ys

/-- `loadTasks` on an index of well-typed records: the typeof filter
passes everything, leaving the `updatedAt`-descending sort. -/
def loadTasksTyped (stored : List TaskRecord) : List TaskRecord :=
  sortByDesc (fun t => t.updatedAt) stored

/-- `upsertTask`, returning the task handed back to the caller and the
index written by `saveTasks`. -/
def upsertTask (stored : List TaskRecord) (input : UpsertTaskInput)
    (timestamp freshId : String) : TaskRecord × List TaskRecord :=
  let tasks := loadTasksTyped stored
  let found : Option TaskRecord :=
    match input.taskId with
    | some tid => if tid ≠ "" then tasks.find? (fun t => t.taskId = tid) else none
    | none => none
  match found with
  | none =>
    let task : TaskRecord :=
      { taskId := input.taskId.getD freshId
        userId := input.userId
        title :=
          match input.title with
          | some s => if jsTrim s ≠ "" then jsTrim s else "Untitled task"
          | none => "Untitled task"
        status := input.status.getD .active
        priority := input.priority.getD .medium
        summary := (input.summary.map jsTrim).getD ""
        createdAt := timestamp
        updatedAt := timestamp
        lastWorkedAt := timestamp }
    (task, tasks ++ [task])
  | some t =>
    let t2 : TaskRecord :=
      { taskId := t.taskId
        userId := t.userId
        title :=
          match input.title with
          | some s => if jsTrim s ≠ "" then jsTrim s else t.title
          | none => t.title
        status := input.status.getD t.status
        priority := input.priority.getD t.priority
        summary :=
          match input.summary with
          | some s => jsTrim s
          | none => t.summary
        createdAt := t.createdAt
        updatedAt := timestamp
        lastWorkedAt := timestamp }
    (t2, replaceFirst (fun u => u.taskId = t.taskId) t2 tasks)

theorem find?_eq_some_of_unique (l : List α) (p : α → Bool) (x : α)
    (hx : x ∈ l) (hpx : p x = true) (huniq : ∀ y ∈ l, p y = true → y = x) :
    l.find? p = some x := by
  induction l with
  | nil => cases hx
  | cons a as ih =>
    by_cases hpa : p a = true
    · rw [List.find?_cons_of_pos _ hpa]
      rw [huniq a (List.mem_cons_self a as) hpa]
    · have hax : x ≠ a := by
        intro hh
        rw [hh] at hpx
        exact hpa hpx
      have hxas : x ∈ as := by
        rcases List.mem_cons.mp hx with h | h
        · exact absurd h hax
        · exact h
      rw [List.find?_cons_of_neg _ (by simpa using hpa)]
      exact ih hxas (fun y hy hpy => huniq y (List.mem_cons_of_mem a hy) hpy)

theorem mem_replaceFirst_of_not_p (p : α → Bool) (x s : α) (l : List α)
    (hs : s ∈ l) (hps : p s = false) : s ∈ replaceFirst p x l := by
  induction l with
  | nil => cases hs
  | cons y ys ih =>
    by_cases hpy : p y = true
    · rw [replaceFirst, if_pos hpy]
      have hsy : s ≠ y := by
        intro hh
        rw [hh, hpy] at hps
        cases hps
      rcases List.mem_cons.mp hs with h | h
      · exact absurd h hsy
      · exact List.mem_cons_of_mem x h
    · rw [replaceFirst, if_neg hpy]
      rcases List.mem_cons.mp hs with h | h
      · rw [h]; exact List.mem_cons_self y _
      · exact List.mem_cons_of_mem y (ih h)

theorem mem_replaceFirst_taskId (l : List TaskRecord) (x : TaskRecord) (tid : String)
    (hnd : (l.map TaskRecord.taskId).Nodup) (s : TaskRecord)
    (hs : s ∈ replaceFirst (fun u => u.taskId = tid) x l) :
    s = x ∨ (s ∈ l ∧ s.taskId ≠ tid) := by
  induction l with
  | nil => cases hs
  | cons y ys ih =>
    rw [List.map_cons, List.nodup_cons] at hnd
    by_cases hpy : y.taskId = tid
    · rw [replaceFirst, if_pos (by simpa using hpy)] at hs
      rcases List.mem_cons.mp hs with h | h
      · exact Or.inl h
      · refine Or.inr ⟨List.mem_cons_of_mem y h, ?_⟩
        intro hh
        exact hnd.1 (by
          rw [← hpy] at hh
          exact List.mem_map.mpr ⟨s, h, hh⟩)
    · rw [replaceFirst, if_neg (by simpa using hpy)] at hs
      rcases List.mem_cons.mp hs with h | h
      · exact Or.inr ⟨by rw [h]; exact List.mem_cons_self y ys, by rw [h]; exact hpy⟩
      · rcases ih hnd.2 h with h2 | h2
        · exact Or.inl h2
        · exact Or.inr ⟨List.mem_cons_of_mem y h2.1, h2.2⟩

/-- C6 (confirmed).  On an existing record, an upsert supplying only
`status` leaves `title`, `summary`, `priority` (and `createdAt`,
`taskId`) unchanged, sets `status` to the supplied value, bumps
`updatedAt` and `lastWorkedAt` to the call's timestamp, and every
other record of the index is carried over unchanged into the saved
index, which contains nothing but the updated record and those
others. -/
theorem upsertTask_status_only_merge (stored : List TaskRecord) (r : TaskRecord)
    (tid u ts fresh : String) (st : TaskStatus)
    (hmem : r ∈ stored) (hid : r.taskId = tid) (htid : tid ≠ "")
    (hnd : (stored.map TaskRecord.taskId).Nodup) :
    (upsertTask stored ⟨u, some tid, none, some st, none, none⟩ ts fresh).1.title = r.title ∧
    (upsertTask stored ⟨u, some tid, none, some st, none, none⟩ ts fresh).1.summary = r.summary ∧
    (upsertTask stored ⟨u, some tid, none, some st, none, none⟩ ts fresh).1.priority = r.priority ∧
    (upsertTask stored ⟨u, some tid, none, some st, none, none⟩ ts fresh).1.createdAt = r.createdAt ∧
    (upsertTask stored ⟨u, some tid, none, some st, none, none⟩ ts fresh).1.taskId = tid ∧
    (upsertTask stored ⟨u, some tid, none, some st, none, none⟩ ts fresh).1.status = st ∧
    (upsertTask stored ⟨u, some tid, none, some st, none, none⟩ ts fresh).1.updatedAt = ts ∧
    (upsertTask stored ⟨u, some tid, none, some st, none, none⟩ ts fresh).1.lastWorkedAt = ts ∧
    (∀ s ∈ stored, s.taskId ≠ tid →
      s ∈ (upsertTask stored ⟨u, some tid, none, some st, none, none⟩ ts fresh).2) ∧
    (∀ s ∈ (upsertTask stored ⟨u, some tid, none, some st, none, none⟩ ts fresh).2,
      s = (upsertTask stored ⟨u, some tid, none, some st, none, none⟩ ts fresh).1 ∨
        (s ∈ stored ∧ s.taskId ≠ tid)) := by
  have hfind : (loadTasksTyped stored).find? (fun t => t.taskId = tid) = some r := by
    apply find?_eq_some_of_unique _ _ r ((mem_sortByDesc _ _ _).mpr hmem) (by simp [hid])
    intro y hy hpy
    have hy2 : y ∈ stored := (mem_sortByDesc _ _ _).mp hy
    have heq : y.taskId = r.taskId := by
      rw [hid]
      simpa using hpy
    exact List.inj_on_of_nodup_map hnd hy2 hmem heq
  have hndsorted : ((loadTasksTyped stored).map TaskRecord.taskId).Nodup := by
    rw [loadTasksTyped]
    exact (((sortByDesc_perm (fun t => t.updatedAt) stored).map TaskRecord.taskId).nodup_iff).mpr hnd
  have hunfold :
      upsertTask stored ⟨u, some tid, none, some st, none, none⟩ ts fresh =
        ({ taskId := r.taskId, userId := r.userId, title := r.title, status := st,
           priority := r.priority, summary := r.summary, createdAt := r.createdAt,
           updatedAt := ts, lastWorkedAt := ts },
         replaceFirst (fun a => a.taskId = r.taskId)
           { taskId := r.taskId, userId := r.userId, title := r.title, status := st,
             priority := r.priority, summary := r.summary, createdAt := r.createdAt,
             updatedAt := ts, lastWorkedAt := ts } (loadTasksTyped stored)) := by
    simp only [upsertTask, htid, if_pos, ite_not, if_neg, hfind]
    simp [htid]
  rw [hunfold]
  refine ⟨rfl, rfl, rfl, rfl, hid, rfl, rfl, rfl, ?_, ?_⟩
  · intro s hs hsid
    apply mem_replaceFirst_of_not_p
    · exact (mem_sortByDesc _ _ _).mpr hs
    · rw [hid]
      simpa using hsid
  · intro s hs
    rcases mem_replaceFirst_taskId (loadTasksTyped stored) _ r.taskId hndsorted s hs with h | h
    · exact Or.inl h
    · refine Or.inr ⟨(mem_sortByDesc _ _ _).mp h.1, ?_⟩
      rw [← hid]
      exact h.2

/-- Two concrete records for the C6 witness. -/
def taskRecA : TaskRecord :=
  { taskId := "task_a", userId := "u1", title := "Fix bug", status := .active,
    priority := .high, summary := "found it", createdAt := "2024-01-01T00:00:00.000Z",
    updatedAt := "2024-01-02T00:00:00.000Z", lastWorkedAt := "2024-01-02T00:00:00.000Z" }

def taskRecB : TaskRecord :=
  { taskId := "task_b", userId := "u1", title := "Write docs", status := .blocked,
    priority := .low, summary := "", createdAt := "2024-01-01T00:00:00.000Z",
    updatedAt := "2024-01-03T00:00:00.000Z", lastWorkedAt := "2024-01-03T00:00:00.000Z" }

/-- Witness for C6: the status-only upsert on a concrete two-record index. -/
theorem upsertTask_status_only_merge_witness :
    (upsertTask [taskRecA, taskRecB] ⟨"u1", some "task_a", none, some .completed, none, none⟩
      "2024-02-01T00:00:00.000Z" "task_x_y").1.title = taskRecA.title ∧
    (upsertTask [taskRecA, taskRecB] ⟨"u1", some "task_a", none, some .completed, none, none⟩
      "2024-02-01T00:00:00.000Z" "task_x_y").1.summary = taskRecA.summary ∧
    (upsertTask [taskRecA, taskRecB] ⟨"u1", some "task_a", none, some .completed, none, none⟩
      "2024-02-01T00:00:00.000Z" "task_x_y").1.priority = taskRecA.priority ∧
    (upsertTask [taskRecA, taskRecB] ⟨"u1", some "task_a", none, some .completed, none, none⟩
      "2024-02-01T00:00:00.000Z" "task_x_y").1.createdAt = taskRecA.createdAt ∧
    (upsertTask [taskRecA, taskRecB] ⟨"u1", some "task_a", none, some .completed, none, none⟩
      "2024-02-01T00:00:00.000Z" "task_x_y").1.taskId = "task_a" ∧
    (upsertTask [taskRecA, taskRecB] ⟨"u1", some "task_a", none, some .completed, none, none⟩
      "2024-02-01T00:00:00.000Z" "task_x_y").1.status = TaskStatus.completed ∧
    (upsertTask [taskRecA, taskRecB] ⟨"u1", some "task_a", none, some .completed, none, none⟩
      "2024-02-01T00:00:00.000Z" "task_x_y").1.updatedAt = "2024-02-01T00:00:00.000Z" ∧
    (upsertTask [taskRecA, taskRecB] ⟨"u1", some "task_a", none, some .completed, none, none⟩
      "2024-02-01T00:00:00.000Z" "task_x_y").1.lastWorkedAt = "2024-02-01T00:00:00.000Z" ∧
    (∀ s ∈ [taskRecA, taskRecB], s.taskId ≠ "task_a" →
      s ∈ (upsertTask [taskRecA, taskRecB]
        ⟨"u1", some "task_a", none, some .completed, none, none⟩
        "2024-02-01T00:00:00.000Z" "task_x_y").2) ∧
    (∀ s ∈ (upsertTask [taskRecA, taskRecB]
        ⟨"u1", some "task_a", none, some .completed, none, none⟩
        "2024-02-01T00:00:00.000Z" "task_x_y").2,
      s = (upsertTask [taskRecA, taskRecB]
        ⟨"u1", some "task_a", none, some .completed, none, none⟩
        "2024-02-01T00:00:00.000Z" "task_x_y").1 ∨
        (s ∈ [taskRecA, taskRecB] ∧ s.taskId ≠ "task_a")) :=
  upsertTask_status_only_merge [taskRecA, taskRecB] taskRecA "task_a" "u1"
    "2024-02-01T00:00:00.000Z" "task_x_y" .completed (by decide) rfl (by decide) (by decide)

/-- C3 counterexample: an upsert that supplies a `taskId` absent from
the index (here, any id against the empty index) creates a record
carrying the *supplied* id verbatim — `taskId: input.taskId ?? generateTaskId()`
— not a freshly generated one: the generator's output (the `freshId`
argument) is ignored. -/
theorem upsertTask_supplied_id_counterexample :
    (upsertTask [] ⟨"u1", some "mytask", some "Fix bug", none, none, none⟩
      "2024-01-01T00:00:00.000Z" (generateTaskId "ls9x1a2b" "q7r8s9")).1.taskId = "mytask" ∧
    (upsertTask [] ⟨"u1", some "mytask", some "Fix bug", none, none, none⟩
      "2024-01-01T00:00:00.000Z" (generateTaskId "ls9x1a2b" "q7r8s9")).1.taskId ≠
      generateTaskId "ls9x1a2b" "q7r8s9" := by
  constructor
  · rfl
  · decide

/-- C3 (amended).  When no existing record is found, `upsertTask`
creates a record whose id is the supplied `taskId` if one was given
and otherwise the freshly generated id; `status` defaults to `active`
and `priority` to `medium` when absent; the record is appended to the
index; and when no `taskId` was supplied the new id is absent from the
prior index exactly when the generator's output is (the code performs
no absence check). -/
theorem upsertTask_create (stored : List TaskRecord) (input : UpsertTaskInput)
    (ts fresh : String)
    (hnotfound : ∀ r ∈ stored, input.taskId ≠ some r.taskId) :
    (upsertTask stored input ts fresh).1.taskId = input.taskId.getD fresh ∧
    (input.status = none → (upsertTask stored input ts fresh).1.status = .active) ∧
    (input.priority = none → (upsertTask stored input ts fresh).1.priority = .medium) ∧
    (upsertTask stored input ts fresh).1.createdAt = ts ∧
    (upsertTask stored input ts fresh).1.updatedAt = ts ∧
    (upsertTask stored input ts fresh).1.lastWorkedAt = ts ∧
    (upsertTask stored input ts fresh).2 =
      loadTasksTyped stored ++ [(upsertTask stored input ts fresh).1] ∧
    (input.taskId = none → fresh ∉ stored.map TaskRecord.taskId →
      (upsertTask stored input ts fresh).1.taskId ∉ stored.map TaskRecord.taskId) := by
  have hfound :
      (match input.taskId with
        | some tid =>
          if tid ≠ "" then (loadTasksTyped stored).find? (fun t => t.taskId = tid) else none
        | none => (none : Option TaskRecord)) = none := by
    match htid : input.taskId with
    | none => rfl
    | some tid =>
      by_cases hne : tid = ""
      · simp [hne]
      · simp only [ne_eq, hne, not_false_iff, if_pos, ite_not, if_neg]
        rw [List.find?_eq_none]
        intro x hx
        have hx2 : x ∈ stored := (mem_sortByDesc _ _ _).mp hx
        have := hnotfound x hx2
        rw [htid] at this
        simp only [ne_eq, Option.some.injEq] at this
        simpa using fun hh => this hh.symm
  constructor
  · simp only [upsertTask, hfound]
  constructor
  · intro hst; simp only [upsertTask, hfound, hst, Option.getD_none]
  constructor
  · intro hpr; simp only [upsertTask, hfound, hpr, Option.getD_none]
  constructor
  · simp only [upsertTask, hfound]
  constructor
  · simp only [upsertTask, hfound]
  constructor
  · simp only [upsertTask, hfound]
  constructor
  · simp only [upsertTask, hfound]
  · intro hid hfresh
    simp only [upsertTask, hfound, hid, Option.getD_none]
    exact hfresh

/-- Witness for C3 (amended): create with no supplied id and no
status/priority against a concrete one-record index. -/
theorem upsertTask_create_witness :
    (upsertTask [taskRecA] ⟨"u1", none, some "New thing", none, none, none⟩
      "2024-02-01T00:00:00.000Z" (generateTaskId "ls9x1a2b" "q7r8s9")).1.taskId =
      (none : Option String).getD (generateTaskId "ls9x1a2b" "q7r8s9") ∧
    ((none : Option TaskStatus) = none →
      (upsertTask [taskRecA] ⟨"u1", none, some "New thing", none, none, none⟩
        "2024-02-01T00:00:00.000Z" (generateTaskId "ls9x1a2b" "q7r8s9")).1.status = .active) ∧
    ((none : Option TaskPriority) = none →
      (upsertTask [taskRecA] ⟨"u1", none, some "New thing", none, none, none⟩
        "2024-02-01T00:00:00.000Z" (generateTaskId "ls9x1a2b" "q7r8s9")).1.priority = .medium) ∧
    (upsertTask [taskRecA] ⟨"u1", none, some "New thing", none, none, none⟩
      "2024-02-01T00:00:00.000Z" (generateTaskId "ls9x1a2b" "q7r8s9")).1.createdAt =
      "2024-02-01T00:00:00.000Z" ∧
    (upsertTask [taskRecA] ⟨"u1", none, some "New thing", none, none, none⟩
      "2024-02-01T00:00:00.000Z" (generateTaskId "ls9x1a2b" "q7r8s9")).1.updatedAt =
      "2024-02-01T00:00:00.000Z" ∧
    (upsertTask [taskRecA] ⟨"u1", none, some "New thing", none, none, none⟩
      "2024-02-01T00:00:00.000Z" (generateTaskId "ls9x1a2b" "q7r8s9")).1.lastWorkedAt =
      "2024-02-01T00:00:00.000Z" ∧
    (upsertTask [taskRecA] ⟨"u1", none, some "New thing", none, none, none⟩
      "2024-02-01T00:00:00.000Z" (generateTaskId "ls9x1a2b" "q7r8s9")).2 =
      loadTasksTyped [taskRecA] ++
        [(upsertTask [taskRecA] ⟨"u1", none, some "New thing", none, none, none⟩
          "2024-02-01T00:00:00.000Z" (generateTaskId "ls9x1a2b" "q7r8s9")).1] ∧
    ((none : Option String) = none →
      generateTaskId "ls9x1a2b" "q7r8s9" ∉ [taskRecA].map TaskRecord.taskId →
      (upsertTask [taskRecA] ⟨"u1", none, some "New thing", none, none, none⟩
        "2024-02-01T00:00:00.000Z" (generateTaskId "ls9x1a2b" "q7r8s9")).1.taskId ∉
        [taskRecA].map TaskRecord.taskId) :=
  upsertTask_create [taskRecA] ⟨"u1", none, some "New thing", none, none, none⟩
    "2024-02-01T00:00:00.000Z" (generateTaskId "ls9x1a2b" "q7r8s9") (by decide)

/-! ### Task Touch Correlator (src/memory/tasks.ts, markTaskTouched / consumeTaskTouches)

`recentTaskTouches` is a process-global `Map` from userId to a `Map`
from taskId to the latest `TaskTouch`; both maps are modelled as
association lists with JavaScript `Map` semantics (`setAssoc`,
`getAssoc`, `removeAssoc` above).  `markTaskTouched` overwrites the
per-task slot; `consumeTaskTouches` removes the user's whole entry and
returns its values sorted by `touchedAt` descending. -/

inductive TouchAction where
  | create_task
  | update_task
  | append_note
  | complete_task
deriving DecidableEq

structure TaskTouch where
  taskId : String
  action : TouchAction
  touchedAt : String
deriving DecidableEq

abbrev TouchStore := List (String × List (String × TaskTouch))

/-- One `markTaskTouched(userId, taskId, action)` call, with the
`nowIso()` timestamp it stored. -/
structure TouchCall where
  userId : String
  taskId : String
  action : TouchAction
  touchedAt : String
deriving DecidableEq

def touchOf (c : TouchCall) : TaskTouch :=
  { taskId := c.taskId, action := c.action, touchedAt := c.touchedAt }

/-- `markTaskTouched`: fetch (or create) the user's map, overwrite the
task's slot, store the user's map back. -/
def markTaskTouched (userId taskId : String) (action : TouchAction) (touchedAt : String)
    (store : TouchStore) : TouchStore :=
  let byUser := (getAssoc userId store).getD []
  setAssoc userId
    (setAssoc taskId { taskId := taskId, action := action, touchedAt := touchedAt } byUser)
    store

/-- `consumeTaskTouches`: return `[]` if the user has no entry;
otherwise delete the user's entry and return its values sorted
most-recent-first. -/
def consumeTaskTouches (userId : String) (store : TouchStore) :
    List TaskTouch × TouchStore :=
  match getAssoc userId store with
  | none => ([], store)
  | some byUser =>
    (sortByDesc (fun t => t.touchedAt) (byUser.map Prod.snd), removeAssoc userId store)

/-- A sequence of `markTaskTouched` calls, applied in order. -/
def applyTouches : List TouchCall → TouchStore → TouchStore
  | [], store => store
  | c :: cs, store => applyTouches cs (markTaskTouched c.userId c.taskId c.action c.touchedAt store)

/-- The per-user inner map evolution of `applyTouches`. -/
def applyUser : List TouchCall → List (String × TaskTouch) → List (String × TaskTouch)
  | [], m => m
  | c :: cs, m => applyUser cs (setAssoc c.taskId (touchOf c) m)

/-- The latest touch call in `cs` for task `i` (the one whose action a
second touch of the same task overwrites to). -/
def lastTouchFor (i : String) (cs : List TouchCall) : Option TouchCall :=
  (cs.filter (fun c => c.taskId = i)).getLast?

theorem getAssoc_applyTouches_getD (u : String) (calls : List TouchCall) (store : TouchStore) :
    (getAssoc u (applyTouches calls store)).getD [] =
      applyUser (calls.filter (fun c => c.userId = u)) ((getAssoc u store).getD []) := by
  induction calls generalizing store with
  | nil => simp [applyTouches, applyUser]
  | cons c cs ih =>
    rw [applyTouches, ih]
    by_cases hcu : c.userId = u
    · rw [List.filter_cons_of_pos (by simpa using hcu)]
      rw [applyUser, markTaskTouched]
      rw [getAssoc_setAssoc, if_pos hcu.symm, Option.getD_some, hcu]
      rfl
    · rw [List.filter_cons_of_neg (by simpa using hcu)]
      rw [markTaskTouched, getAssoc_setAssoc, if_neg (fun hh => hcu hh.symm)]

theorem getAssoc_applyTouches_none_iff (u : String) (calls : List TouchCall) (store : TouchStore) :
    getAssoc u (applyTouches calls store) = none ↔
      (getAssoc u store = none ∧ calls.filter (fun c => c.userId = u) = []) := by
  induction calls generalizing store with
  | nil => simp [applyTouches]
  | cons c cs ih =>
    rw [applyTouches, ih]
    by_cases hcu : c.userId = u
    · rw [List.filter_cons_of_pos (by simpa using hcu)]
      rw [markTaskTouched, getAssoc_setAssoc, if_pos hcu.symm]
      simp
    · rw [List.filter_cons_of_neg (by simpa using hcu)]
      rw [markTaskTouched, getAssoc_setAssoc, if_neg (fun hh => hcu hh.symm)]

theorem applyTouches_keys_nodup (calls : List TouchCall) (store : TouchStore)
    (h : (store.map Prod.fst).Nodup) :
    ((applyTouches calls store).map Prod.fst).Nodup := by
  induction calls generalizing store with
  | nil => exact h
  | cons c cs ih =>
    rw [applyTouches]
    exact ih _ (setAssoc_keys_nodup _ _ _ h)

theorem applyUser_keys_nodup (cs : List TouchCall) (m : List (String × TaskTouch))
    (h : (m.map Prod.fst).Nodup) : ((applyUser cs m).map Prod.fst).Nodup := by
  induction cs generalizing m with
  | nil => exact h
  | cons c cs ih =>
    rw [applyUser]
    exact ih _ (setAssoc_keys_nodup _ _ _ h)

theorem mem_setAssoc [DecidableEq κ] (k k1 : κ) (v v1 : α) (m : List (κ × α))
    (h : (k, v) ∈ setAssoc k1 v1 m) : (k, v) = (k1, v1) ∨ (k, v) ∈ m := by
  induction m with
  | nil =>
    rw [setAssoc] at h
    exact Or.inl (List.mem_singleton.mp h)
  | cons p rest ih =>
    obtain ⟨ka, va⟩ := p
    rw [setAssoc] at h
    by_cases hk : ka = k1
    · rw [if_pos hk] at h
      rcases List.mem_cons.mp h with h2 | h2
      · exact Or.inl h2
      · exact Or.inr (List.mem_cons_of_mem _ h2)
    · rw [if_neg hk] at h
      rcases List.mem_cons.mp h with h2 | h2
      · exact Or.inr (List.mem_cons.mpr (Or.inl h2))
      · rcases ih h2 with h3 | h3
        · exact Or.inl h3
        · exact Or.inr (List.mem_cons_of_mem _ h3)

theorem applyUser_taskId_inv (cs : List TouchCall) (m : List (String × TaskTouch))
    (h : ∀ p ∈ m, (Prod.snd p).taskId = p.1) :
    ∀ p ∈ applyUser cs m, (Prod.snd p).taskId = p.1 := by
  induction cs generalizing m with
  | nil => exact h
  | cons c cs ih =>
    rw [applyUser]
    apply ih
    intro p hp
    obtain ⟨pk, pv⟩ := p
    rcases mem_setAssoc pk c.taskId pv (touchOf c) m hp with h2 | h2
    · rw [Prod.mk.injEq] at h2
      rw [h2.2, h2.1]
      rfl
    · exact h (pk, pv) h2

theorem getAssoc_applyUser (i : String) (cs : List TouchCall) (m : List (String × TaskTouch)) :
    getAssoc i (applyUser cs m) =
      match lastTouchFor i cs with
      | some c => some (touchOf c)
      | none => getAssoc i m := by
  induction cs generalizing m with
  | nil => simp [applyUser, lastTouchFor]
  | cons c cs ih =>
    rw [applyUser, ih]
    match hl : lastTouchFor i cs with
    | some c1 =>
      have hne : cs.filter (fun c => c.taskId = i) ≠ [] := by
        intro hh
        rw [lastTouchFor, hh] at hl
        cases hl
      rw [lastTouchFor]
      by_cases hci : c.taskId = i
      · rw [List.filter_cons_of_pos (by simpa using hci)]
        obtain ⟨x, xs, hxs⟩ := List.exists_cons_of_ne_nil hne
        rw [hxs, List.getLast?_cons_cons]
        rw [lastTouchFor, hxs] at hl
        rw [hl]
      · rw [List.filter_cons_of_neg (by simpa using hci)]
        rw [lastTouchFor] at hl
        rw [hl]
    | none =>
      have hnil : cs.filter (fun c => c.taskId = i) = [] := by
        rw [lastTouchFor] at hl
        exact List.getLast?_eq_none_iff.mp hl
      rw [getAssoc_setAssoc, lastTouchFor]
      by_cases hci : c.taskId = i
      · rw [List.filter_cons_of_pos (by simpa using hci), hnil]
        rw [if_pos hci.symm]
        rfl
      · rw [List.filter_cons_of_neg (by simpa using hci), hnil]
        rw [if_neg (fun hh => hci hh.symm)]
        rfl

theorem values_taskIds (m : List (String × TaskTouch))
    (hinv : ∀ p ∈ m, (Prod.snd p).taskId = p.1) :
    (m.map Prod.snd).map (fun t => t.taskId) = m.map Prod.fst := by
  induction m with
  | nil => rfl
  | cons p ps ih =>
    rw [List.map_cons, List.map_cons, List.map_cons]
    rw [hinv p (List.mem_cons_self p ps)]
    rw [ih (fun q hq => hinv q (List.mem_cons_of_mem p hq))]

/-- C7 (confirmed).  Starting from a store with no entry for the user
(the state right after the previous consume) and applying any sequence
of touch calls, `consumeTaskTouches` returns exactly the touches
recorded for that user: every returned touch is the latest touch of
its task (same action and timestamp), every task touched for the user
is represented, taskIds are not repeated, the list is ordered
most-recent-first, and an immediately following consume for the same
user returns the empty list. -/
theorem consumeTaskTouches_spec (store0 : TouchStore) (calls : List TouchCall) (u : String)
    (hnone : getAssoc u store0 = none)
    (hnd0 : (store0.map Prod.fst).Nodup) :
    (∀ t ∈ (consumeTaskTouches u (applyTouches calls store0)).1,
      ∃ c, lastTouchFor t.taskId (calls.filter (fun c => c.userId = u)) = some c ∧
        touchOf c = t) ∧
    (∀ c ∈ calls, c.userId = u →
      ∃ t ∈ (consumeTaskTouches u (applyTouches calls store0)).1, t.taskId = c.taskId) ∧
    ((consumeTaskTouches u (applyTouches calls store0)).1.map (fun t => t.taskId)).Nodup ∧
    SortedDescBy (fun t => t.touchedAt) (consumeTaskTouches u (applyTouches calls store0)).1 ∧
    (consumeTaskTouches u (consumeTaskTouches u (applyTouches calls store0)).2).1 = [] := by
  by_cases hempty : calls.filter (fun c => c.userId = u) = []
  · have hsn : getAssoc u (applyTouches calls store0) = none :=
      (getAssoc_applyTouches_none_iff u calls store0).mpr ⟨hnone, hempty⟩
    have hc : consumeTaskTouches u (applyTouches calls store0) =
        ([], applyTouches calls store0) := by
      simp only [consumeTaskTouches, hsn]
    rw [hc]
    refine ⟨?_, ?_, ?_, ?_, ?_⟩
    · intro t ht
      exact absurd ht (List.not_mem_nil t)
    · intro c hcm hcu
      exfalso
      have hmem : c ∈ calls.filter (fun c => c.userId = u) :=
        List.mem_filter.mpr ⟨hcm, by simpa using hcu⟩
      rw [hempty] at hmem
      exact absurd hmem (List.not_mem_nil c)
    · simp
    · exact List.Pairwise.nil
    · simp only [consumeTaskTouches, hsn]
  · have hsome : getAssoc u (applyTouches calls store0) ≠ none := by
      intro hh
      exact hempty ((getAssoc_applyTouches_none_iff u calls store0).mp hh).2
    obtain ⟨m, hm⟩ : ∃ m, getAssoc u (applyTouches calls store0) = some m := by
      cases hx : getAssoc u (applyTouches calls store0) with
      | none => exact absurd hx hsome
      | some m => exact ⟨m, rfl⟩
    have hm0 := getAssoc_applyTouches_getD u calls store0
    rw [hnone, hm] at hm0
    have hmval : m = applyUser (calls.filter (fun c => c.userId = u)) [] := by
      simpa using hm0
    have hcons : consumeTaskTouches u (applyTouches calls store0) =
        (sortByDesc (fun t => t.touchedAt) (m.map Prod.snd),
          removeAssoc u (applyTouches calls store0)) := by
      simp only [consumeTaskTouches, hm]
    have hknd : (m.map Prod.fst).Nodup := by
      rw [hmval]
      exact applyUser_keys_nodup _ [] (by simp)
    have hinv : ∀ p ∈ m, (Prod.snd p).taskId = p.1 := by
      rw [hmval]
      exact applyUser_taskId_inv _ [] (by intro p hp; cases hp)
    have hget : ∀ i, getAssoc i m =
        match lastTouchFor i (calls.filter (fun c => c.userId = u)) with
        | some c => some (touchOf c)
        | none => none := by
      intro i
      rw [hmval, getAssoc_applyUser]
      cases lastTouchFor i (calls.filter (fun c => c.userId = u)) with
      | none => rfl
      | some c => rfl
    rw [hcons]
    refine ⟨?_, ?_, ?_, ?_, ?_⟩
    · intro t ht
      have ht2 : t ∈ m.map Prod.snd := (mem_sortByDesc _ _ _).mp ht
      obtain ⟨p, hp, hpt⟩ := List.mem_map.mp ht2
      obtain ⟨k, t1⟩ := p
      have ht1 : t1 = t := hpt
      rw [ht1] at hp
      have hkt : t.taskId = k := hinv (k, t) hp
      have hg : getAssoc k m = some t := (mem_getAssoc_of_nodup m k t hknd).mp hp
      rw [hget k] at hg
      cases hl : lastTouchFor k (calls.filter (fun c => c.userId = u)) with
      | none =>
        rw [hl] at hg
        cases hg
      | some c =>
        rw [hl] at hg
        refine ⟨c, ?_, Option.some.inj hg⟩
        rw [hkt]
        exact hl
    · intro c hcm hcu
      have hcf : c ∈ calls.filter (fun x => x.userId = u) :=
        List.mem_filter.mpr ⟨hcm, by simpa using hcu⟩
      have hcf2 : c ∈ (calls.filter (fun x => x.userId = u)).filter
          (fun x => x.taskId = c.taskId) :=
        List.mem_filter.mpr ⟨hcf, by simp⟩
      have hne2 : (calls.filter (fun x => x.userId = u)).filter
          (fun x => x.taskId = c.taskId) ≠ [] := by
        intro hh
        rw [hh] at hcf2
        exact absurd hcf2 (List.not_mem_nil c)
      obtain ⟨c1, hc1⟩ : ∃ c1,
          lastTouchFor c.taskId (calls.filter (fun x => x.userId = u)) = some c1 := by
        rw [lastTouchFor]
        cases hgl : ((calls.filter (fun x => x.userId = u)).filter
            (fun x => x.taskId = c.taskId)).getLast? with
        | none => exact absurd (List.getLast?_eq_none_iff.mp hgl) hne2
        | some c1 => exact ⟨c1, rfl⟩
      have hc1mem : c1 ∈ (calls.filter (fun x => x.userId = u)).filter
          (fun x => x.taskId = c.taskId) := by
        rw [lastTouchFor] at hc1
        obtain ⟨hne3, heq⟩ := List.mem_getLast?_eq_getLast (Option.mem_def.mpr hc1)
        rw [heq]
        exact List.getLast_mem hne3
      have hc1tid : c1.taskId = c.taskId := by
        simpa using (List.mem_filter.mp hc1mem).2
      have hg : getAssoc c.taskId m = some (touchOf c1) := by
        rw [hget, hc1]
      have hmem2 : (c.taskId, touchOf c1) ∈ m := (mem_getAssoc_of_nodup m _ _ hknd).mpr hg
      refine ⟨touchOf c1,
        (mem_sortByDesc _ _ _).mpr (List.mem_map.mpr ⟨_, hmem2, rfl⟩), ?_⟩
      simpa [touchOf] using hc1tid
    · have hperm :=
        (sortByDesc_perm (fun t => t.touchedAt) (m.map Prod.snd)).map (fun t => t.taskId)
      rw [values_taskIds m hinv] at hperm
      exact hperm.nodup_iff.mpr hknd
    · exact sortByDesc_sorted _ _
    · have hnone2 : getAssoc u (removeAssoc u (applyTouches calls store0)) = none :=
        getAssoc_removeAssoc_self u _ (applyTouches_keys_nodup calls store0 hnd0)
      simp only [consumeTaskTouches, hnone2]

/-- Concrete touch sequence for the C7 witness: two users, task_a
touched twice for u1. -/
def touchCallsDemo : List TouchCall :=
  [{ userId := "u1", taskId := "task_a", action := .create_task,
     touchedAt := "2024-01-01T10:00:00.000Z" },
   { userId := "u2", taskId := "task_z", action := .append_note,
     touchedAt := "2024-01-01T10:30:00.000Z" },
   { userId := "u1", taskId := "task_b", action := .append_note,
     touchedAt := "2024-01-01T11:00:00.000Z" },
   { userId := "u1", taskId := "task_a", action := .update_task,
     touchedAt := "2024-01-01T12:00:00.000Z" }]

/-- Witness for C7 at the concrete touch sequence against the empty
store. -/
theorem consumeTaskTouches_spec_witness :
    (∀ t ∈ (consumeTaskTouches "u1" (applyTouches touchCallsDemo [])).1,
      ∃ c, lastTouchFor t.taskId (touchCallsDemo.filter (fun c => c.userId = "u1")) = some c ∧
        touchOf c = t) ∧
    (∀ c ∈ touchCallsDemo, c.userId = "u1" →
      ∃ t ∈ (consumeTaskTouches "u1" (applyTouches touchCallsDemo [])).1,
        t.taskId = c.taskId) ∧
    ((consumeTaskTouches "u1" (applyTouches touchCallsDemo [])).1.map
      (fun t => t.taskId)).Nodup ∧
    SortedDescBy (fun t => t.touchedAt)
      (consumeTaskTouches "u1" (applyTouches touchCallsDemo [])).1 ∧
    (consumeTaskTouches "u1" (consumeTaskTouches "u1" (applyTouches touchCallsDemo [])).2).1 = [] :=
  consumeTaskTouches_spec [] touchCallsDemo "u1" rfl List.nodup_nil

/-! ### Rich-Text Formatter (src/interfaces/telegram.ts, formatTelegramOutput)

The formatter first normalizes HTML-like tags and entities into the
marker syntax (`normalizeFormattingInput`, a chain of global regex
replacements) and then makes a single left-to-right scan converting
fenced blocks, bold and inline-code markers into Telegram entities.
Both stages are embedded.  Each regex is rendered as a matcher on a
character list returning the remainder after a leftmost match; a
global replace scans left to right, splices the replacement, and
resumes after the match, never rescanning the replacement within the
same pass (JS `String.prototype.replace` semantics).  JS `\s` is
modelled as `Char.isWhitespace` (its ASCII core).  Both loops are
rendered with explicit fuel (one unit per iteration, each of which
consumes at least one character), supplied as the input's length. -/

/-- JS `\s` (ASCII core). -/
def jsWS (c : Char) : Bool := c.isWhitespace

/-- Case-insensitive literal match (the `i` flag); the pattern is given
lowercased.  Returns the remainder after the matched word. -/
def matchCI : List Char → List Char → Option (List Char)
  | [], s => some s
  | _ :: _, [] => none
  | p :: ps, c :: cs => if c.toLower = p then matchCI ps cs else none

/-- `<\s*word\s*>` (opening, `slash = false`) and `<\s*\/\s*word\s*>`
(closing, `slash = true`), case-insensitive. -/
def matchTag (slash : Bool) (word : List Char) (s : List Char) : Option (List Char) :=
  match s with
  | [] => none
  | c :: rest =>
    if c = '<' then
      let r1 := rest.dropWhile jsWS
      let afterSlash : Option (List Char) :=
        if slash then
          match r1 with
          | '/' :: r2 => some (r2.dropWhile jsWS)
          | _ => none
        else some r1
      match afterSlash with
      | none => none
      | some r2 =>
        match matchCI word r2 with
        | none => none
        | some r3 =>
          match r3.dropWhile jsWS with
          | '>' :: r4 => some r4
          | _ => none
    else none

/-- The `(strong|b)` alternation: the first alternative is preferred,
the second is tried on backtracking. -/
def matchTagAlt (slash : Bool) (w1 w2 : List Char) (s : List Char) : Option (List Char) :=
  match matchTag slash w1 s with
  | some r => some r
  | none => matchTag slash w2 s

/-- `<\s*pre(?:\s+[^>]*)?\s*>`: after `pre`, either `\s*>` directly or
one-plus whitespace followed by non-`>` characters up to a `>`. -/
def matchPreOpen (s : List Char) : Option (List Char) :=
  match s with
  | [] => none
  | c :: rest =>
    if c = '<' then
      match matchCI ("pre".data) (rest.dropWhile jsWS) with
      | none => none
      | some r2 =>
        match r2 with
        | '>' :: r3 => some r3
        | c2 :: _ =>
          if jsWS c2 then
            match r2.dropWhile (fun x => !(x == '>')) with
            | '>' :: r4 => some r4
            | _ => none
          else none
        | [] => none
    else none

/-- The leftover-tag pattern `<\/?[a-zA-Z][^>]*>` (no whitespace
allowed after `<` here, and the name must start with a letter). -/
def matchAnyTag (s : List Char) : Option (List Char) :=
  match s with
  | [] => none
  | c :: rest =>
    if c = '<' then
      let r1 := match rest with
        | '/' :: r => r
        | _ => rest
      match r1 with
      | [] => none
      | c2 :: r2 =>
        if c2.isAlpha then
          match r2.dropWhile (fun x => !(x == '>')) with
          | '>' :: r3 => some r3
          | _ => none
        else none
    else none

/-- A plain literal pattern (the case-sensitive entity decodes). -/
def matchLit (pat : List Char) (s : List Char) : Option (List Char) :=
  if pat.isPrefixOf s then some (s.drop pat.length) else none

/-- `\n{3,}` (greedy): three-plus newlines, consuming the whole run. -/
def matchNewlines3 (s : List Char) : Option (List Char) :=
  if s.take 3 = ['\n', '\n', '\n'] then some (s.dropWhile (fun c => c == '\n'))
  else none

/-- One global replace pass: scan left to right; at a match splice the
replacement and resume after the match, else copy one character.
Every matcher above consumes at least one character, so fuel equal to
the input length always suffices. -/
def replaceScanF (m : List Char → Option (List Char)) (repl : List Char) :
    Nat → List Char → List Char
  | _, [] => []
  | 0, s => s
  | Nat.succ fuel, c :: rest =>
    match m (c :: rest) with
    | some r2 => repl ++ replaceScanF m repl fuel r2
    | none => c :: replaceScanF m repl fuel rest

/-- One `.replace(re, repl)` link of the normalization chain. -/
def runPass (m : List Char → Option (List Char)) (repl : List Char)
    (s : List Char) : List Char :=
  replaceScanF m repl s.length s

/-- The normalization chain's passes, in source order: tag-to-marker
conversions, leftover-tag removal, entity decodes, blank-line
collapse. -/
def normalizePasses : List ((List Char → Option (List Char)) × List Char) :=
  [(matchTagAlt false ("strong".data) ("b".data), "**".data),
   (matchTagAlt true ("strong".data) ("b".data), "**".data),
   (matchTag false ("code".data), "`".data),
   (matchTag true ("code".data), "`".data),
   (matchPreOpen, "```".data),
   (matchTag true ("pre".data), "```".data),
   (matchAnyTag, []),
   (matchLit ("&lt;".data), "<".data),
   (matchLit ("&gt;".data), ">".data),
   (matchLit ("&amp;".data), "&".data),
   (matchNewlines3, "\n\n".data)]

/-- `normalizeFormattingInput`: empty (falsy) input short-circuits,
otherwise the replacement chain runs and the result is trimmed. -/
def normalizeFormattingInput (text : String) : String :=
  if text = "" then ""
  else jsTrim (String.mk
    (normalizePasses.foldl (fun s p => runPass p.1 p.2 s) text.data))

/-- A pass chain each of whose links fixes `s` fixes `s`. -/
theorem foldl_runPass_id (ps : List ((List Char → Option (List Char)) × List Char))
    (s : List Char) (h : ∀ p ∈ ps, runPass p.1 p.2 s = s) :
    ps.foldl (fun acc p => runPass p.1 p.2 acc) s = s := by
  induction ps with
  | nil => rfl
  | cons p ps ih =>
    rw [List.foldl_cons, h p (List.mem_cons_self p ps)]
    exact ih (fun q hq => h q (List.mem_cons_of_mem p hq))

/-- A replace pass whose pattern matches at no position is the
identity. -/
theorem replaceScanF_id (m : List Char → Option (List Char)) (repl : List Char) :
    ∀ (fuel : Nat) (s : List Char), s.length ≤ fuel →
      (∀ t, t ≠ [] → t <:+ s → m t = none) →
      replaceScanF m repl fuel s = s := by
  intro fuel
  induction fuel with
  | zero =>
    intro s hs _
    match s with
    | [] => rfl
    | c :: rest => simp at hs
  | succ f ih =>
    intro s hs hm
    match s with
    | [] => rfl
    | c :: rest =>
      have h0 : m (c :: rest) = none := hm _ (by simp) (List.suffix_refl _)
      simp only [replaceScanF, h0]
      have hrec : replaceScanF m repl f rest = rest := by
        apply ih
        · have := hs
          simp only [List.length_cons] at this
          omega
        · intro t ht hsuf
          exact hm t ht (hsuf.trans ⟨[c], rfl⟩)
      rw [hrec]

theorem matchTag_head_none (slash : Bool) (word : List Char) (c : Char)
    (rest : List Char) (hc : ¬ c = '<') : matchTag slash word (c :: rest) = none := by
  simp only [matchTag, if_neg hc]

theorem matchTagAlt_head_none (slash : Bool) (w1 w2 : List Char) (c : Char)
    (rest : List Char) (hc : ¬ c = '<') : matchTagAlt slash w1 w2 (c :: rest) = none := by
  simp only [matchTagAlt, matchTag_head_none slash w1 c rest hc,
    matchTag_head_none slash w2 c rest hc]

theorem matchPreOpen_head_none (c : Char) (rest : List Char) (hc : ¬ c = '<') :
    matchPreOpen (c :: rest) = none := by
  simp only [matchPreOpen, if_neg hc]

theorem matchAnyTag_head_none (c : Char) (rest : List Char) (hc : ¬ c = '<') :
    matchAnyTag (c :: rest) = none := by
  simp only [matchAnyTag, if_neg hc]

theorem matchLit_head_none (p : Char) (ps : List Char) (c : Char) (rest : List Char)
    (hc : ¬ p = c) : matchLit (p :: ps) (c :: rest) = none := by
  have hb : (p == c) = false := by
    rw [beq_eq_false_iff_ne]
    exact hc
  simp [matchLit, List.isPrefixOf, hb]

theorem matchNewlines3_head_none (c : Char) (rest : List Char) (hc : ¬ c = '\n') :
    matchNewlines3 (c :: rest) = none := by
  have h3 : List.take 3 (c :: rest) = c :: List.take 2 rest := rfl
  rw [matchNewlines3, h3]
  rw [if_neg (by simp [hc])]

theorem dropWhile_eq_self_of_all (p : Char → Bool) (l : List Char)
    (h : ∀ c ∈ l, p c = false) : l.dropWhile p = l := by
  cases l with
  | nil => rfl
  | cons c rest =>
    rw [List.dropWhile_cons, h c (List.mem_cons_self c rest)]
    simp

/-- `jsTrim` is the identity on whitespace-free text. -/
theorem jsTrim_mk_id (l : List Char) (h : ∀ c ∈ l, Char.isWhitespace c = false) :
    jsTrim (String.mk l) = String.mk l := by
  rw [jsTrim]
  rw [show (String.mk l).data = l from rfl]
  rw [dropWhile_eq_self_of_all Char.isWhitespace l h]
  rw [dropWhile_eq_self_of_all Char.isWhitespace l.reverse
    (fun c hc => h c (List.mem_reverse.mp hc))]
  rw [List.reverse_reverse]

inductive EntityType where
  | bold
  | code
  | pre
deriving DecidableEq

structure TelegramEntity where
  type : EntityType
  offset : Nat
  length : Nat
deriving DecidableEq

/-- The `/^[a-zA-Z0-9_+-]{1,32}$/` language-tag character class. -/
def isLangChar (c : Char) : Bool :=
  c.isAlpha || c.isDigit || c = '_' || c = '+' || c = '-'

/-- Stripping an opening fenced block's language tag: if the block has
a first line that trims to 1–32 language-tag characters, drop that
line. -/
def stripLang (block : List Char) : List Char :=
  match findSub ['\n'] block with
  | none => block
  | some idx =>
    let firstLine := jsTrim (String.mk (block.take idx))
    if 1 ≤ firstLine.length && firstLine.length ≤ 32 && firstLine.data.all isLangChar
    then block.drop (idx + 1) else block

/-- The fenced-block case of the scan: opener present and closer
found, returning the emitted block and the rest of the input. -/
def scanStepFence (s : List Char) : Option (List Char × List Char) :=
  if ("```".data).isPrefixOf s then
    match findSub ("```".data) (s.drop 3) with
    | some k => some (stripLang ((s.drop 3).take k), s.drop (3 + k + 3))
    | none => none
  else none

/-- The bold case of the scan. -/
def scanStepBold (s : List Char) : Option (List Char × List Char) :=
  if ("**".data).isPrefixOf s then
    match findSub ("**".data) (s.drop 2) with
    | some k => some ((s.drop 2).take k, s.drop (2 + k + 2))
    | none => none
  else none

/-- The inline-code case of the scan. -/
def scanStepCode (s : List Char) : Option (List Char × List Char) :=
  match s with
  | '`' :: rest =>
    match findSub ['`'] rest with
    | some k => some (rest.take k, s.drop (1 + k + 1))
    | none => none
  | _ => none

/-- The scan loop.  Cases in source order with fallthrough: fence,
bold, code, literal character.  An opener with no matching closer
falls through (and is eventually emitted literally). -/
def formatScanF : Nat → List Char → List Char → List TelegramEntity →
    List Char × List TelegramEntity
  | 0, _, out, ents => (out, ents)
  | Nat.succ fuel, s, out, ents =>
    match s with
    | [] => (out, ents)
    | c :: rest =>
      match scanStepFence s with
      | some (block, s2) =>
        formatScanF fuel s2 (out ++ block)
          (if 0 < block.length then
            ents ++ [{ type := .pre, offset := out.length, length := block.length }] else ents)
      | none =>
        match scanStepBold s with
        | some (content, s2) =>
          formatScanF fuel s2 (out ++ content)
            (if 0 < content.length then
              ents ++ [{ type := .bold, offset := out.length, length := content.length }] else ents)
        | none =>
          match scanStepCode s with
          | some (content, s2) =>
            formatScanF fuel s2 (out ++ content)
              (if 0 < content.length then
                ents ++ [{ type := .code, offset := out.length, length := content.length }]
              else ents)
          | none => formatScanF fuel rest (out ++ [c]) ents

/-- `formatTelegramOutput`'s scan loop, on the normalized input. -/
def formatScan (s : List Char) : List Char × List TelegramEntity :=
  formatScanF s.length s [] []

/-- `formatTelegramOutput`: normalize, then scan. -/
def formatTelegramOutput (text : String) : List Char × List TelegramEntity :=
  formatScan (normalizeFormattingInput text).data

/-- Span validity relative to an output text: positive length, fully
contained. -/
def EntsOk (out : List Char) (ents : List TelegramEntity) : Prop :=
  ∀ e ∈ ents, 0 < e.length ∧ e.offset + e.length ≤ out.length

theorem entsOk_extend (out block : List Char) (ents : List TelegramEntity) (et : EntityType)
    (h : EntsOk out ents) :
    EntsOk (out ++ block)
      (if 0 < block.length then
        ents ++ [{ type := et, offset := out.length, length := block.length }] else ents) := by
  by_cases hb : 0 < block.length
  · rw [if_pos hb]
    intro e he
    rcases List.mem_append.mp he with he | he
    · obtain ⟨h1, h2⟩ := h e he
      exact ⟨h1, by rw [List.length_append]; omega⟩
    · rw [List.mem_singleton] at he
      subst he
      refine ⟨hb, ?_⟩
      rw [List.length_append]
  · rw [if_neg hb]
    intro e he
    obtain ⟨h1, h2⟩ := h e he
    exact ⟨h1, by rw [List.length_append]; omega⟩

theorem formatScanF_entsOk (fuel : Nat) :
    ∀ (s out : List Char) (ents : List TelegramEntity), EntsOk out ents →
      EntsOk (formatScanF fuel s out ents).1 (formatScanF fuel s out ents).2 := by
  induction fuel with
  | zero => intro s out ents h; exact h
  | succ fuel ih =>
    intro s out ents h
    match s with
    | [] => exact h
    | c :: rest =>
      cases hf : scanStepFence (c :: rest) with
      | some p =>
        obtain ⟨block, s2⟩ := p
        simp only [formatScanF, hf]
        exact ih s2 _ _ (entsOk_extend out block ents .pre h)
      | none =>
        cases hb : scanStepBold (c :: rest) with
        | some p =>
          obtain ⟨content, s2⟩ := p
          simp only [formatScanF, hf, hb]
          exact ih s2 _ _ (entsOk_extend out content ents .bold h)
        | none =>
          cases hc : scanStepCode (c :: rest) with
          | some p =>
            obtain ⟨content, s2⟩ := p
            simp only [formatScanF, hf, hb, hc]
            exact ih s2 _ _ (entsOk_extend out content ents .code h)
          | none =>
            simp only [formatScanF, hf, hb, hc]
            apply ih rest (out ++ [c]) ents
            intro e he
            obtain ⟨h1, h2⟩ := h e he
            exact ⟨h1, by rw [List.length_append]; omega⟩

/-- All spans the scan produces are positive-length and fully
contained in the produced plain text. -/
theorem formatScan_entsOk (s : List Char) :
    EntsOk (formatScan s).1 (formatScan s).2 :=
  formatScanF_entsOk s.length s [] [] (by intro e he; cases he)

/-- The same, for the full formatter. -/
theorem formatTelegramOutput_entsOk (s : String) :
    EntsOk (formatTelegramOutput s).1 (formatTelegramOutput s).2 :=
  formatScan_entsOk (normalizeFormattingInput s).data

/-! ### Truncation (src/interfaces/telegram.ts, editMessage / trimEntitiesToLength) -/

/-- The transport's maximum text length used by `editMessage` and
`replyWithFormatting`. -/
def MAX_LENGTH : Nat := 4000

/-- The truncation marker appended after the cut. -/
def truncSuffix : List Char := "\n\n... (truncated)".data

/-- `trimEntitiesToLength`: drop entities starting at or beyond the
cut, clamp the rest to the cut, drop the now-empty ones. -/
def trimEntitiesToLength (entities : List TelegramEntity) (maxLength : Nat) :
    List TelegramEntity :=
  ((entities.filter (fun e => e.offset < maxLength)).map
    (fun e => { e with length := min e.length (maxLength - e.offset) })).filter
    (fun e => 0 < e.length)

/-- The length guard shared by `editMessage` and
`replyWithFormatting`: over-long text is cut at
`MAX_LENGTH - suffix.length` (never below 0), the marker is appended,
and the entities are trimmed to the cut. -/
def applyTelegramLimit (t : List Char) (ents : List TelegramEntity) :
    List Char × List TelegramEntity :=
  if MAX_LENGTH < t.length then
    (t.take (MAX_LENGTH - truncSuffix.length) ++ truncSuffix,
      trimEntitiesToLength ents (MAX_LENGTH - truncSuffix.length))
  else (t, ents)

theorem trimEntities_valid (ents : List TelegramEntity) (maxLength : Nat) :
    ∀ e ∈ trimEntitiesToLength ents maxLength,
      0 < e.length ∧ e.offset + e.length ≤ maxLength := by
  intro e he
  rw [trimEntitiesToLength] at he
  obtain ⟨he2, hpos⟩ := List.mem_filter.mp he
  obtain ⟨e0, he0, heq⟩ := List.mem_map.mp he2
  obtain ⟨he00, hlt⟩ := List.mem_filter.mp he0
  refine ⟨by simpa using hpos, ?_⟩
  rw [← heq]
  simp only
  have hlt2 : e0.offset < maxLength := by simpa using hlt
  omega

theorem trimEntities_eq_filterMap (ents : List TelegramEntity) (maxLength : Nat)
    (hpos : ∀ e ∈ ents, 0 < e.length) :
    trimEntitiesToLength ents maxLength = ents.filterMap (fun e =>
      if maxLength ≤ e.offset then none
      else if maxLength < e.offset + e.length then
        some { e with length := maxLength - e.offset }
      else some e) := by
  induction ents with
  | nil => rfl
  | cons e es ih =>
    have hpe : 0 < e.length := hpos e (List.mem_cons_self e es)
    have ihrec := ih (fun x hx => hpos x (List.mem_cons_of_mem e hx))
    rw [List.filterMap_cons]
    by_cases h1 : maxLength ≤ e.offset
    · rw [if_pos h1]
      rw [trimEntitiesToLength, List.filter_cons_of_neg (by simpa using h1)]
      rw [← ihrec]
      rfl
    · rw [if_neg h1]
      have h1lt : e.offset < maxLength := by omega
      by_cases h2 : maxLength < e.offset + e.length
      · rw [if_pos h2]
        rw [trimEntitiesToLength, List.filter_cons_of_pos (by simpa using h1lt),
          List.map_cons, List.filter_cons_of_pos (by simp; omega)]
        rw [trimEntitiesToLength] at ihrec
        rw [ihrec]
        have : min e.length (maxLength - e.offset) = maxLength - e.offset := by omega
        rw [this]
      · rw [if_neg h2]
        rw [trimEntitiesToLength, List.filter_cons_of_pos (by simpa using h1lt),
          List.map_cons, List.filter_cons_of_pos (by simp; omega)]
        rw [trimEntitiesToLength] at ihrec
        rw [ihrec]
        have : min e.length (maxLength - e.offset) = e.length := by omega
        rw [this]

/-- C5 (confirmed).  For every input whose formatted (normalized and
scanned) output exceeds the transport's maximum length of 4000, the truncated
output's length is within the limit, and the retained spans are
exactly the original ones with every span starting at or beyond the
cut dropped, every span crossing the cut clamped to end exactly at the
cut boundary, and the rest kept; all retained spans have positive
length and lie fully within the truncated output. -/
theorem editMessage_truncation_safety (s : String)
    (h : MAX_LENGTH < (formatTelegramOutput s).1.length) :
    (applyTelegramLimit (formatTelegramOutput s).1 (formatTelegramOutput s).2).1.length ≤
      MAX_LENGTH ∧
    (applyTelegramLimit (formatTelegramOutput s).1 (formatTelegramOutput s).2).2 =
      (formatTelegramOutput s).2.filterMap (fun e =>
        if MAX_LENGTH - truncSuffix.length ≤ e.offset then none
        else if MAX_LENGTH - truncSuffix.length < e.offset + e.length then
          some { e with length := MAX_LENGTH - truncSuffix.length - e.offset }
        else some e) ∧
    (∀ e ∈ (applyTelegramLimit (formatTelegramOutput s).1 (formatTelegramOutput s).2).2,
      0 < e.length ∧
      e.offset + e.length ≤ MAX_LENGTH - truncSuffix.length ∧
      e.offset + e.length ≤
        (applyTelegramLimit (formatTelegramOutput s).1 (formatTelegramOutput s).2).1.length) := by
  have hsuf : truncSuffix.length = 17 := rfl
  have happ : applyTelegramLimit (formatTelegramOutput s).1 (formatTelegramOutput s).2 =
      ((formatTelegramOutput s).1.take (MAX_LENGTH - truncSuffix.length) ++ truncSuffix,
        trimEntitiesToLength (formatTelegramOutput s).2 (MAX_LENGTH - truncSuffix.length)) := by
    rw [applyTelegramLimit, if_pos h]
  have hlen : ((formatTelegramOutput s).1.take (MAX_LENGTH - truncSuffix.length) ++
      truncSuffix).length = MAX_LENGTH := by
    rw [List.length_append, List.length_take, hsuf]
    have : MAX_LENGTH = 4000 := rfl
    omega
  refine ⟨?_, ?_, ?_⟩
  · rw [happ]
    exact le_of_eq hlen
  · rw [happ]
    exact trimEntities_eq_filterMap _ _
      (fun e he => ((formatTelegramOutput_entsOk s) e he).1)
  · rw [happ]
    intro e he
    obtain ⟨h1, h2⟩ := trimEntities_valid _ _ e he
    refine ⟨h1, h2, ?_⟩
    rw [hlen]
    have : MAX_LENGTH = 4000 := rfl
    omega

/-- Concrete over-long input for the C5 witness: one fenced block of
4005 characters. -/
def truncDemoInput : List Char :=
  "```".data ++ List.replicate 4005 'a' ++ "```".data

def truncDemoStr : String := String.mk truncDemoInput

theorem truncDemoInput_length : truncDemoInput.length = 4011 := by
  rw [truncDemoInput, List.length_append, List.length_append, List.length_replicate]
  rfl

theorem truncDemo_chars : ∀ c ∈ truncDemoInput, c = '`' ∨ c = 'a' := by
  intro c hc
  rw [truncDemoInput] at hc
  have h3 : "```".data = ['`', '`', '`'] := rfl
  rcases List.mem_append.mp hc with h | h
  · rcases List.mem_append.mp h with h2 | h2
    · rw [h3] at h2
      simp at h2
      left
      exact h2
    · right
      exact List.eq_of_mem_replicate h2
  · rw [h3] at h
    simp at h
    left
    exact h

theorem findSub_single_none (ch : Char) (l : List Char) (h : ch ∉ l) :
    findSub [ch] l = none := by
  induction l with
  | nil => rfl
  | cons c rest ih =>
    rw [List.mem_cons] at h
    have h1 : ¬ ch = c := fun hh => h (Or.inl hh)
    rw [findSub]
    rw [if_neg (by simp [List.isPrefixOf, h1])]
    rw [ih (fun hh => h (Or.inr hh))]
    rfl

theorem findSub_tick3_append (block tailpart : List Char) (h : '`' ∉ block)
    (hstart : ("```".data).isPrefixOf tailpart = true) :
    findSub ("```".data) (block ++ tailpart) = some block.length := by
  induction block with
  | nil =>
    match tailpart with
    | [] => simp [List.isPrefixOf] at hstart
    | c :: rest =>
      rw [List.nil_append, findSub, if_pos hstart]
      rfl
  | cons c bs ih =>
    rw [List.mem_cons] at h
    have h1 : ¬ ('`' : Char) = c := fun hh => h (Or.inl hh)
    have h2 : ¬ c = ('`' : Char) := fun hh => h1 hh.symm
    rw [List.cons_append, findSub]
    rw [if_neg (by
      intro hcond
      simp only [List.isPrefixOf, Bool.and_eq_true, beq_iff_eq] at hcond
      exact h1 hcond.1)]
    rw [ih (fun hh => h (Or.inr hh))]
    simp

theorem formatScanF_nil (fuel : Nat) (out : List Char) (ents : List TelegramEntity) :
    formatScanF fuel [] out ents = (out, ents) := by
  cases fuel with
  | zero => rfl
  | succ f => rfl

/-- One whole fenced block (backtick- and newline-free body) scans to
the body with one `pre` entity. -/
theorem formatScanF_fence_clean (fuel : Nat) (block out : List Char)
    (ents : List TelegramEntity) (hfuel : 1 ≤ fuel)
    (hnb : '`' ∉ block) (hnn : '\n' ∉ block) :
    formatScanF fuel ("```".data ++ block ++ "```".data) out ents =
      (out ++ block,
        if 0 < block.length then
          ents ++ [{ type := .pre, offset := out.length, length := block.length }]
        else ents) := by
  obtain ⟨f, rfl⟩ : ∃ f, fuel = f + 1 := ⟨fuel - 1, by omega⟩
  have hs : "```".data ++ block ++ "```".data =
      '`' :: '`' :: '`' :: (block ++ "```".data) := by
    simp
  have hpre : ("```".data).isPrefixOf ('`' :: '`' :: '`' :: (block ++ "```".data)) = true := by
    simp [List.isPrefixOf]
  have hdrop3 : ('`' :: '`' :: '`' :: (block ++ "```".data)).drop 3 = block ++ "```".data := rfl
  have hfind : findSub ("```".data) (block ++ "```".data) = some block.length :=
    findSub_tick3_append block ("```".data) hnb (by simp [List.isPrefixOf])
  have htake : (block ++ "```".data).take block.length = block := List.take_left block _
  have hstrip : stripLang block = block := by
    rw [stripLang, findSub_single_none '\n' block hnn]
  have hdropall : ('`' :: '`' :: '`' :: (block ++ "```".data)).drop
      (3 + block.length + 3) = [] := by
    rw [show 3 + block.length + 3 = 3 + (block.length + 3) by omega]
    rw [← List.drop_drop (block.length + 3) 3, hdrop3, List.drop_append 3]
    rfl
  have hfence : scanStepFence ('`' :: '`' :: '`' :: (block ++ "```".data)) =
      some (block, []) := by
    rw [scanStepFence, if_pos hpre, hdrop3, hfind]
    simp only [htake, hstrip, hdropall]
  rw [hs]
  simp only [formatScanF, hfence]
  rw [formatScanF_nil]

/-- The scanned result of `truncDemoInput`: the 4005-character block
body with one covering `pre` span. -/
theorem truncDemo_format :
    formatScan truncDemoInput =
      (List.replicate 4005 'a',
        [{ type := .pre, offset := 0, length := 4005 }]) := by
  have hnb : '`' ∉ List.replicate 4005 'a' := by
    intro hh
    have := List.eq_of_mem_replicate hh
    cases this
  have hnn : '\n' ∉ List.replicate 4005 'a' := by
    intro hh
    have := List.eq_of_mem_replicate hh
    cases this
  rw [formatScan, truncDemoInput_length, truncDemoInput]
  rw [formatScanF_fence_clean 4011 (List.replicate 4005 'a') [] [] (by omega) hnb hnn]
  rw [List.nil_append]
  rw [if_pos (by rw [List.length_replicate]; omega)]
  rw [List.length_replicate]
  rfl

/-- The demo input contains no tag opener, entity ampersand, newline
or whitespace, so every normalization pass and the trim leave it
unchanged. -/
theorem normalize_truncDemo :
    normalizeFormattingInput truncDemoStr = truncDemoStr := by
  have hne : ¬ (truncDemoStr = "") := by
    intro hh
    have h0 : truncDemoInput.length = 0 := by
      rw [show truncDemoInput = truncDemoStr.data from rfl, hh]
      rfl
    rw [truncDemoInput_length] at h0
    exact absurd h0 (by decide)
  have hhead : ∀ (c : Char) (rest : List Char), (c :: rest) <:+ truncDemoInput →
      c = '`' ∨ c = 'a' := by
    intro c rest hsuf
    exact truncDemo_chars c (hsuf.subset (List.mem_cons_self c rest))
  have hneq : ∀ (ch : Char), ¬ ('`' : Char) = ch → ¬ ('a' : Char) = ch →
      ∀ (c : Char) (rest : List Char), (c :: rest) <:+ truncDemoInput → ¬ c = ch := by
    intro ch h1 h2 c rest hsuf hc
    subst hc
    rcases hhead c rest hsuf with h | h
    · exact h1 h.symm
    · exact h2 h.symm
  have hlt := hneq '<' (by decide) (by decide)
  have hamp := hneq '&' (by decide) (by decide)
  have hnl := hneq '\n' (by decide) (by decide)
  have hid : ∀ (m : List Char → Option (List Char)) (repl : List Char),
      (∀ (c : Char) (rest : List Char), (c :: rest) <:+ truncDemoInput →
        m (c :: rest) = none) →
      runPass m repl truncDemoInput = truncDemoInput := by
    intro m repl hm
    rw [runPass]
    apply replaceScanF_id
    · exact le_refl _
    · intro t ht hsuf
      match t, ht with
      | c :: rest, _ => exact hm c rest hsuf
  have hall : ∀ p ∈ normalizePasses, runPass p.1 p.2 truncDemoInput = truncDemoInput := by
    intro p hp
    simp only [normalizePasses, List.mem_cons] at hp
    rcases hp with rfl | rfl | rfl | rfl | rfl | rfl | rfl | rfl | rfl | rfl | rfl | h
    · exact hid _ _ (fun c rest hsuf =>
        matchTagAlt_head_none false ("strong".data) ("b".data) c rest (hlt c rest hsuf))
    · exact hid _ _ (fun c rest hsuf =>
        matchTagAlt_head_none true ("strong".data) ("b".data) c rest (hlt c rest hsuf))
    · exact hid _ _ (fun c rest hsuf =>
        matchTag_head_none false ("code".data) c rest (hlt c rest hsuf))
    · exact hid _ _ (fun c rest hsuf =>
        matchTag_head_none true ("code".data) c rest (hlt c rest hsuf))
    · exact hid _ _ (fun c rest hsuf => matchPreOpen_head_none c rest (hlt c rest hsuf))
    · exact hid _ _ (fun c rest hsuf =>
        matchTag_head_none true ("pre".data) c rest (hlt c rest hsuf))
    · exact hid _ _ (fun c rest hsuf => matchAnyTag_head_none c rest (hlt c rest hsuf))
    · exact hid _ _ (fun c rest hsuf =>
        matchLit_head_none '&' ("lt;".data) c rest (fun hh => hamp c rest hsuf hh.symm))
    · exact hid _ _ (fun c rest hsuf =>
        matchLit_head_none '&' ("gt;".data) c rest (fun hh => hamp c rest hsuf hh.symm))
    · exact hid _ _ (fun c rest hsuf =>
        matchLit_head_none '&' ("amp;".data) c rest (fun hh => hamp c rest hsuf hh.symm))
    · exact hid _ _ (fun c rest hsuf => matchNewlines3_head_none c rest (hnl c rest hsuf))
    · exact absurd h (List.not_mem_nil p)
  rw [normalizeFormattingInput, if_neg hne]
  rw [show truncDemoStr.data = truncDemoInput from rfl]
  rw [foldl_runPass_id normalizePasses truncDemoInput hall]
  rw [jsTrim_mk_id truncDemoInput (fun c hc => by
    rcases truncDemo_chars c hc with h | h <;> (rw [h]; decide))]
  rfl

/-- Witness for C5 at the concrete over-long input. -/
theorem editMessage_truncation_safety_witness :
    (applyTelegramLimit (formatTelegramOutput truncDemoStr).1
      (formatTelegramOutput truncDemoStr).2).1.length ≤ MAX_LENGTH ∧
    (applyTelegramLimit (formatTelegramOutput truncDemoStr).1
      (formatTelegramOutput truncDemoStr).2).2 =
      (formatTelegramOutput truncDemoStr).2.filterMap (fun e =>
        if MAX_LENGTH - truncSuffix.length ≤ e.offset then none
        else if MAX_LENGTH - truncSuffix.length < e.offset + e.length then
          some { e with length := MAX_LENGTH - truncSuffix.length - e.offset }
        else some e) ∧
    (∀ e ∈ (applyTelegramLimit (formatTelegramOutput truncDemoStr).1
        (formatTelegramOutput truncDemoStr).2).2,
      0 < e.length ∧
      e.offset + e.length ≤ MAX_LENGTH - truncSuffix.length ∧
      e.offset + e.length ≤
        (applyTelegramLimit (formatTelegramOutput truncDemoStr).1
          (formatTelegramOutput truncDemoStr).2).1.length) :=
  editMessage_truncation_safety truncDemoStr
    (by
      rw [show formatTelegramOutput truncDemoStr = formatScan truncDemoInput from by
        rw [formatTelegramOutput, normalize_truncDemo]
        rfl]
      rw [truncDemo_format, List.length_replicate, show MAX_LENGTH = 4000 from rfl]
      omega)

/-! ### Transport edit calls (src/interfaces/telegram.ts, editMessage)

A transport call either resolves or rejects with an error message.
`editMessage` catches a rejection, treats one whose lowercased message
contains "message is not modified" as a successful no-op, and
rethrows any other. -/

inductive TransportOutcome where
  | ok
  | reject (msg : String)
deriving DecidableEq

/-- The substring Telegram uses for the edit-to-identical-content 400
response. -/
def notModifiedPat : String := "message is not modified"

/-- The `try`/`catch` tail of `editMessage`, as a function of the
transport call's outcome. -/
def editMessageResult (o : TransportOutcome) : Except String Unit :=
  match o with
  | .ok => .ok ()
  | .reject m =>
    if strIncludes (jsToLower m) notModifiedPat then .ok () else .error m

/-- C9 (confirmed).  A transport rejection whose message indicates
content identical to the existing message is swallowed and the edit
returns successfully; any other rejection is rethrown to the caller
(where, uncaught at the turn's final update, it becomes the turn's
failure); a resolving call trivially succeeds. -/
theorem editMessage_noop_spec (m : String) :
    editMessageResult .ok = .ok () ∧
    (strIncludes (jsToLower m) notModifiedPat = true →
      editMessageResult (.reject m) = .ok ()) ∧
    (strIncludes (jsToLower m) notModifiedPat = false →
      editMessageResult (.reject m) = .error m) := by
  refine ⟨rfl, ?_, ?_⟩
  · intro h
    rw [editMessageResult, if_pos h]
  · intro h
    rw [editMessageResult, if_neg (by rw [h]; exact Bool.false_ne_true)]

/-- Witness for C9: the Telegram 400 text is swallowed, an unrelated
rejection propagates. -/
theorem editMessage_noop_spec_witness :
    editMessageResult (.reject "Bad Request: message is not modified") = .ok () ∧
    editMessageResult (.reject "Bad Request: chat not found") =
      .error "Bad Request: chat not found" :=
  ⟨(editMessage_noop_spec "Bad Request: message is not modified").2.1 (by decide),
   (editMessage_noop_spec "Bad Request: chat not found").2.2 (by decide)⟩

/-! ### Incremental Renderer: the message:text turn handler
(src/interfaces/telegram.ts, bot.on("message:text") body)

The handler is modelled as a deterministic function of the turn's
inputs: the pulled event sequence (each event paired with the
`Date.now()` value read while processing it), the transport's
responses to the create/edit/reply calls in order (an exhausted list
means every further call resolves), the touch store at handler entry
and the touch calls the tools make during the prompt, and the user's
message.  File-system appends and the typing indicator are assumed to
resolve (their failures are swallowed or logged by the code paths
modelled); the 800 ms initial sleep has no observable effect.  The
handler's observable behaviour is its ordered effect trace, its final
`responseText`, and whether the `try` body completed, its `catch`
rendered a thrown error, or that rendering itself threw. -/

inductive AsstEvent where
  | text_delta (delta : String)
  | otherAsst
deriving DecidableEq

inductive AgEvent where
  | message_update (inner : AsstEvent)
  | message_end (message : Option JVal)
  | tool_execution_start (toolName : String)
  | agent_end (messages : List JVal) (error : Option String)
  | otherEvent

/-- `extractAssistantTextFromMessage`: role must be `"assistant"`;
string content is returned as-is, array content contributes its
`{type:"text", text}` blocks concatenated; anything else yields `""`.
`none` models an absent or non-object `message`. -/
def extractAssistantTextFromMessage (message : Option JVal) : String :=
  match message with
  | some (.obj fields) =>
    match assocLast "role" fields with
    | some (.str "assistant") =>
      match assocLast "content" fields with
      | some (.str s) => s
      | some (.arr blocks) =>
        String.join (blocks.filterMap (fun b =>
          match b with
          | .obj bf =>
            match assocLast "type" bf, assocLast "text" bf with
            | some (.str "text"), some (.str t) => some t
            | _, _ => none
          | _ => none))
      | _ => ""
    | _ => ""
  | _ => ""

/-- Backward scan of `extractAssistantTextFromAgentEnd`, on the
already-reversed message list. -/
def extractFromEndAux : List JVal → String
  | [] => ""
  | m :: rest =>
    let t := extractAssistantTextFromMessage (some m)
    if jsTrim t ≠ "" then t else extractFromEndAux rest

/-- `extractAssistantTextFromAgentEnd`: scan the terminal event's
message list backward and return the first non-blank assistant
text. -/
def extractAssistantTextFromAgentEnd (messages : List JVal) : String :=
  extractFromEndAux messages.reverse

inductive Effect where
  | sendTyping
  | createMessage (text : String) (entities : List TelegramEntity)
  | editMsg (text : String) (entities : List TelegramEntity)
  | plainReply (text : String)
  | appendTranscriptFx (entries : List TranscriptEntry)
  | appendMemoryFx (userMessage assistantMessage : String)
  | appendTaskNoteFx (taskId : String) (note : String)
deriving DecidableEq

structure RunState where
  responseText : String
  lastUpdateTime : Nat
  lastTypingTime : Nat
  sentMessage : Bool
  effects : List Effect
  outcomes : List TransportOutcome
deriving DecidableEq

def UPDATE_INTERVAL : Nat := 1000

def TYPING_INTERVAL : Nat := 4000

/-- The tool status line `🔧 Running: <name>` (U+1F527 wrench). -/
def toolInfoPrefix : String := String.mk [Char.ofNat 0x1F527] ++ " Running: "

/-- The visible fallback notice of the empty-response path. -/
def retryNotice : String :=
  "I didn" ++ String.mk ['\''] ++ "t get a response text from the model. Please retry."

/-- Format plus length guard shared by `editMessage` and
`replyWithFormatting`. -/
def formatForTransport (text : String) : String × List TelegramEntity :=
  let f := formatTelegramOutput text
  let g := applyTelegramLimit f.1 f.2
  (String.mk g.1, g.2)

/-- `replyWithFormatting` (also the bare `ctx.reply` of the first
delta): no catch, so any rejection is rethrown. -/
def createCall (st : RunState) (text : String) : RunState × Except String Unit :=
  ({ st with
      outcomes := st.outcomes.tail,
      effects := st.effects ++
        [.createMessage (formatForTransport text).1 (formatForTransport text).2] },
   match st.outcomes.headD .ok with
   | .ok => .ok ()
   | .reject m => .error m)

/-- `editMessage`: format, truncate, call the transport, swallow the
"message is not modified" rejection, rethrow others. -/
def editCall (st : RunState) (text : String) : RunState × Except String Unit :=
  ({ st with
      outcomes := st.outcomes.tail,
      effects := st.effects ++
        [.editMsg (formatForTransport text).1 (formatForTransport text).2] },
   editMessageResult (st.outcomes.headD .ok))

/-- The plain `ctx.reply` of the no-response fallback (no formatting,
no catch). -/
def plainReplyCall (st : RunState) (text : String) : RunState × Except String Unit :=
  ({ st with
      outcomes := st.outcomes.tail,
      effects := st.effects ++ [.plainReply text] },
   match st.outcomes.headD .ok with
   | .ok => .ok ()
   | .reject m => .error m)

/-- The keep-typing-alive block at the top of each loop iteration;
its transport failure is swallowed and it consumes no oracle entry. -/
def typingKeepalive (st : RunState) (tNow : Nat) : RunState :=
  if TYPING_INTERVAL < tNow - st.lastTypingTime then
    { st with lastTypingTime := tNow, effects := st.effects ++ [.sendTyping] }
  else st

/-- One iteration of the `for await` event loop.  The second component
is the thrown error when the iteration escapes the loop body. -/
def stepEvent (st : RunState) (ev : AgEvent) (tNow : Nat) : RunState × Option String :=
  let st := typingKeepalive st tNow
  match ev with
  | .message_update (.text_delta d) =>
    let st := { st with responseText := st.responseText ++ d }
    if st.sentMessage = false ∧ 0 < st.responseText.length then
      match createCall st st.responseText with
      | (st2, .ok _) => ({ st2 with sentMessage := true, lastUpdateTime := tNow }, none)
      | (st2, .error m) => (st2, some m)
    else if st.sentMessage = true ∧ UPDATE_INTERVAL < tNow - st.lastUpdateTime ∧
        0 < st.responseText.length then
      ((editCall { st with lastUpdateTime := tNow } st.responseText).1, none)
    else (st, none)
  | .message_update .otherAsst => (st, none)
  | .message_end msg =>
    if jsTrim st.responseText = "" then
      let ended := extractAssistantTextFromMessage msg
      if jsTrim ended ≠ "" then ({ st with responseText := ended }, none) else (st, none)
    else (st, none)
  | .tool_execution_start name =>
    if st.sentMessage = true then
      ((editCall st (st.responseText ++ (if st.responseText ≠ "" then "\n\n" else "") ++
        toolInfoPrefix ++ name)).1, none)
    else (st, none)
  | .agent_end messages _err =>
    let st :=
      if jsTrim st.responseText = "" then
        let fb := extractAssistantTextFromAgentEnd messages
        if jsTrim fb ≠ "" then { st with responseText := fb } else st
      else st
    if jsTrim st.responseText ≠ "" then
      if st.sentMessage = true then
        match editCall st st.responseText with
        | (st2, .ok _) => (st2, none)
        | (st2, .error m) => (st2, some m)
      else
        match createCall st st.responseText with
        | (st2, .ok _) => (st2, none)
        | (st2, .error m) => (st2, some m)
    else
      if st.sentMessage = false then
        match plainReplyCall st retryNotice with
        | (st2, .ok _) => (st2, none)
        | (st2, .error m) => (st2, some m)
      else (st, none)
  | .otherEvent => (st, none)

def runEvents (st : RunState) : List (AgEvent × Nat) → RunState × Option String
  | [] => (st, none)
  | (e, t) :: rest =>
    match stepEvent st e t with
    | (st2, none) => runEvents st2 rest
    | (st2, some m) => (st2, some m)

/-- Whitespace-run collapsing of `compact`'s
`replace(/\s+/g, " ")`. -/
def collapseWSAux : List Char → Bool → List Char
  | [], _ => []
  | c :: rest, prevWS =>
    if c.isWhitespace then
      if prevWS then collapseWSAux rest true else ' ' :: collapseWSAux rest true
    else c :: collapseWSAux rest false

/-- `compact` inside `buildTaskProgressNote`. -/
def jsCompact (text : String) (maxLen : Nat) : String :=
  let normalized := jsTrim (String.mk (collapseWSAux text.data false))
  if normalized.length ≤ maxLen then normalized
  else String.mk (normalized.data.take maxLen) ++ "..."

def buildTaskProgressNote (userMessage responseText : String) : String :=
  "User update: " ++ jsCompact userMessage 350 ++ "\n" ++
    "Assistant progress: " ++ jsCompact responseText 700

def actionName : TouchAction → String
  | .create_task => "create_task"
  | .update_task => "update_task"
  | .append_note => "append_note"
  | .complete_task => "complete_task"

/-- The persistence tail of the `try` body: transcript append, then
(memory enabled, non-blank response) the markdown memory entry, then
one task-log note per consumed touch. -/
def finalizeTurn (memoryEnabled : Bool) (userId userMessage : String) (store : TouchStore)
    (tEnd : Int) (st : RunState) : RunState × TouchStore :=
  let entries : List TranscriptEntry :=
    { role := .user, content := userMessage, timestamp := tEnd } ::
      (if jsTrim st.responseText ≠ "" then
        [{ role := .assistant, content := jsTrim st.responseText, timestamp := tEnd }]
      else [])
  let st := { st with effects := st.effects ++ [.appendTranscriptFx entries] }
  let st :=
    if memoryEnabled = true ∧ jsTrim st.responseText ≠ "" then
      { st with effects := st.effects ++
        [.appendMemoryFx userMessage (jsTrim st.responseText)] }
    else st
  if memoryEnabled = true ∧ jsTrim st.responseText ≠ "" then
    let consumed := consumeTaskTouches userId store
    ({ st with effects := st.effects ++ consumed.1.map (fun t =>
        .appendTaskNoteFx t.taskId
          (buildTaskProgressNote userMessage st.responseText ++
            "\n\nSource action: " ++ actionName t.action)) },
     consumed.2)
  else (st, store)

/-- The `catch` block: render the error into the existing message or a
new one; a rejection of that render itself escapes the handler. -/
def handleCatch (st : RunState) (msg : String) : RunState × Option String :=
  if st.sentMessage = true then
    match editCall st ("Error: " ++ msg) with
    | (st2, .ok _) => (st2, none)
    | (st2, .error m2) => (st2, some m2)
  else
    match createCall st ("Error: " ++ msg) with
    | (st2, .ok _) => (st2, none)
    | (st2, .error m2) => (st2, some m2)

inductive TurnOutcome where
  | success
  | caught (msg : String)
  | rethrown (original escaped : String)
deriving DecidableEq

structure TurnResult where
  effects : List Effect
  finalText : String
  outcome : TurnOutcome
deriving DecidableEq

/-- The per-turn state at loop entry: empty accumulated text, no
outbound message, the initial typing call done at `t0`. -/
def initialRunState (t0 : Nat) (outcomes : List TransportOutcome) : RunState :=
  { responseText := ""
    lastUpdateTime := 0
    lastTypingTime := t0
    sentMessage := false
    effects := [.sendTyping]
    outcomes := outcomes }

/-- The whole `message:text` handler turn: the pre-loop stale-touch
consume, the initial typing call, the event loop, and either the
persistence tail or the `catch`. -/
def runTurn (memoryEnabled : Bool) (userId userMessage : String)
    (store0 : TouchStore) (duringTouches : List TouchCall)
    (events : List (AgEvent × Nat)) (t0 : Nat) (tEnd : Int)
    (outcomes : List TransportOutcome) : TurnResult × TouchStore :=
  let storeDuring := applyTouches duringTouches (consumeTaskTouches userId store0).2
  match runEvents (initialRunState t0 outcomes) events with
  | (st, none) =>
    let fin := finalizeTurn memoryEnabled userId userMessage storeDuring tEnd st
    ({ effects := fin.1.effects, finalText := fin.1.responseText, outcome := .success },
     fin.2)
  | (st, some m) =>
    match handleCatch st m with
    | (st2, none) =>
      ({ effects := st2.effects, finalText := st2.responseText, outcome := .caught m },
       storeDuring)
    | (st2, some m2) =>
      ({ effects := st2.effects, finalText := st2.responseText,
         outcome := .rethrown m m2 }, storeDuring)

/-- Persistence effects: transcript, memory entry, task-log notes. -/
def isPersistFx : Effect → Bool
  | .appendTranscriptFx _ => true
  | .appendMemoryFx _ _ => true
  | .appendTaskNoteFx _ _ => true
  | _ => false

/-- Outbound message content calls. -/
def isMessageFx : Effect → Bool
  | .createMessage _ _ => true
  | .editMsg _ _ => true
  | .plainReply _ => true
  | _ => false

/-- The turn's last outbound message content (what the user ends up
seeing). -/
def lastMessageFx (l : List Effect) : Option Effect :=
  (l.filter isMessageFx).getLast?

theorem filter_persist_append1 (l : List Effect) (e : Effect) (he : isPersistFx e = false) :
    (l ++ [e]).filter isPersistFx = l.filter isPersistFx := by
  rw [List.filter_append]
  simp [List.filter, he]

/-- No iteration of the event loop performs a persistence effect. -/
theorem stepEvent_persistFilter (st : RunState) (ev : AgEvent) (t : Nat) :
    (stepEvent st ev t).1.effects.filter isPersistFx = st.effects.filter isPersistFx := by
  cases ev with
  | message_update inner =>
    cases inner with
    | text_delta d =>
      simp only [stepEvent, typingKeepalive, createCall, editCall]
      repeat' split
      all_goals
        first
        | (simp_all [List.filter_append, isPersistFx]; done)
        | (rename_i heq
           injection heq with h1 h2
           subst h1
           simp_all [List.filter_append, isPersistFx])
    | otherAsst =>
      simp only [stepEvent, typingKeepalive]
      repeat' split
      all_goals
        first
        | (simp_all [List.filter_append, isPersistFx]; done)
        | (rename_i heq
           injection heq with h1 h2
           subst h1
           simp_all [List.filter_append, isPersistFx])
  | message_end msg =>
    simp only [stepEvent, typingKeepalive]
    repeat' split
    all_goals
      first
      | (simp_all [List.filter_append, isPersistFx]; done)
      | (rename_i heq
         injection heq with h1 h2
         subst h1
         simp_all [List.filter_append, isPersistFx])
  | tool_execution_start name =>
    simp only [stepEvent, typingKeepalive, editCall]
    repeat' split
    all_goals
      first
      | (simp_all [List.filter_append, isPersistFx]; done)
      | (rename_i heq
         injection heq with h1 h2
         subst h1
         simp_all [List.filter_append, isPersistFx])
  | agent_end messages err =>
    simp only [stepEvent, typingKeepalive, createCall, editCall, plainReplyCall]
    repeat' split
    all_goals
      first
      | (simp_all [List.filter_append, isPersistFx]; done)
      | (rename_i heq
         injection heq with h1 h2
         subst h1
         simp_all [List.filter_append, isPersistFx])
  | otherEvent =>
    simp only [stepEvent, typingKeepalive]
    repeat' split
    all_goals
      first
      | (simp_all [List.filter_append, isPersistFx]; done)
      | (rename_i heq
         injection heq with h1 h2
         subst h1
         simp_all [List.filter_append, isPersistFx])

theorem runEvents_persistFilter (events : List (AgEvent × Nat)) :
    ∀ st : RunState,
      (runEvents st events).1.effects.filter isPersistFx =
        st.effects.filter isPersistFx := by
  induction events with
  | nil => intro st; rfl
  | cons p rest ih =>
    intro st
    obtain ⟨e, t⟩ := p
    rw [runEvents]
    cases hs : stepEvent st e t with
    | mk st2 thrown =>
      have h2 : st2.effects.filter isPersistFx = st.effects.filter isPersistFx := by
        have := stepEvent_persistFilter st e t
        rw [hs] at this
        exact this
      cases thrown with
      | none => rw [ih st2]; exact h2
      | some m => exact h2

theorem handleCatch_persistFilter (st : RunState) (msg : String) :
    (handleCatch st msg).1.effects.filter isPersistFx = st.effects.filter isPersistFx := by
  simp only [handleCatch, editCall, createCall]
  repeat' split
  all_goals
    first
    | (simp_all [List.filter_append, isPersistFx]; done)
    | (rename_i heq
       injection heq with h1 h2
       subst h1
       simp_all [List.filter_append, isPersistFx])

theorem finalizeTurn_responseText (memoryEnabled : Bool) (userId userMessage : String)
    (store : TouchStore) (tEnd : Int) (st : RunState) :
    (finalizeTurn memoryEnabled userId userMessage store tEnd st).1.responseText =
      st.responseText := by
  simp only [finalizeTurn]
  repeat' split
  all_goals rfl

theorem finalizeTurn_effects_mem (userId userMessage : String) (store : TouchStore)
    (tEnd : Int) (st : RunState) (h : jsTrim st.responseText ≠ "") :
    (finalizeTurn true userId userMessage store tEnd st).1.effects =
      st.effects ++
        Effect.appendTranscriptFx
            [{ role := Role.user, content := userMessage, timestamp := tEnd },
             { role := Role.assistant, content := jsTrim st.responseText, timestamp := tEnd }] ::
          Effect.appendMemoryFx userMessage (jsTrim st.responseText) ::
          (consumeTaskTouches userId store).1.map (fun t =>
            Effect.appendTaskNoteFx t.taskId
              (buildTaskProgressNote userMessage st.responseText ++
                "\n\nSource action: " ++ actionName t.action)) := by
  simp only [finalizeTurn, h, if_pos, and_true, true_and, ne_eq, not_false_iff, if_true]
  simp [List.append_assoc]

/-- C2 (amended).  With memory enabled and a non-blank final text, a
turn whose event loop and final transport call complete without
throwing persists, in order: the transcript entries first, then the
markdown memory entry, then one touch-correlated note per consumed
touch — and nothing else; a turn that throws performs no persistence
at all (its `catch` only renders the error). -/
theorem turn_end_persistence (userId userMessage : String) (store0 : TouchStore)
    (duringTouches : List TouchCall) (events : List (AgEvent × Nat)) (t0 : Nat)
    (tEnd : Int) (outcomes : List TransportOutcome) :
    ((runTurn true userId userMessage store0 duringTouches events t0 tEnd
        outcomes).1.outcome = TurnOutcome.success →
      jsTrim (runTurn true userId userMessage store0 duringTouches events t0 tEnd
        outcomes).1.finalText ≠ "" →
      (runTurn true userId userMessage store0 duringTouches events t0 tEnd
        outcomes).1.effects.filter isPersistFx =
        Effect.appendTranscriptFx
            [{ role := Role.user, content := userMessage, timestamp := tEnd },
             { role := Role.assistant,
               content := jsTrim (runTurn true userId userMessage store0 duringTouches
                 events t0 tEnd outcomes).1.finalText, timestamp := tEnd }] ::
          Effect.appendMemoryFx userMessage
            (jsTrim (runTurn true userId userMessage store0 duringTouches events t0 tEnd
              outcomes).1.finalText) ::
          (consumeTaskTouches userId (applyTouches duringTouches
            (consumeTaskTouches userId store0).2)).1.map (fun t =>
            Effect.appendTaskNoteFx t.taskId
              (buildTaskProgressNote userMessage
                (runTurn true userId userMessage store0 duringTouches events t0 tEnd
                  outcomes).1.finalText ++
                "\n\nSource action: " ++ actionName t.action))) ∧
    ((runTurn true userId userMessage store0 duringTouches events t0 tEnd
        outcomes).1.outcome ≠ TurnOutcome.success →
      (runTurn true userId userMessage store0 duringTouches events t0 tEnd
        outcomes).1.effects.filter isPersistFx = []) := by
  rcases hre : runEvents (initialRunState t0 outcomes) events with ⟨st, thrown⟩
  have hloop : st.effects.filter isPersistFx = [] := by
    have := runEvents_persistFilter events (initialRunState t0 outcomes)
    rw [hre] at this
    rw [this]
    rfl
  cases thrown with
  | none =>
    have hrun : runTurn true userId userMessage store0 duringTouches events t0 tEnd
        outcomes =
      ({ effects := (finalizeTurn true userId userMessage
            (applyTouches duringTouches (consumeTaskTouches userId store0).2) tEnd st).1.effects,
         finalText := (finalizeTurn true userId userMessage
            (applyTouches duringTouches (consumeTaskTouches userId store0).2) tEnd
            st).1.responseText,
         outcome := TurnOutcome.success },
       (finalizeTurn true userId userMessage
         (applyTouches duringTouches (consumeTaskTouches userId store0).2) tEnd st).2) := by
      simp only [runTurn, hre]
    constructor
    · intro _ hne
      rw [hrun]
      simp only
      rw [hrun] at hne
      simp only at hne
      rw [finalizeTurn_responseText] at hne
      rw [finalizeTurn_responseText, finalizeTurn_effects_mem _ _ _ _ _ hne]
      rw [List.filter_append, hloop, List.nil_append]
      simp only [List.filter_cons, isPersistFx, List.filter_map, Function.comp]
      simp only [if_pos]
      congr 1
      congr 1
      refine congrArg (List.map _) ?_
      apply List.filter_eq_self.mpr
      intro a ha
      rfl
    · intro hne
      exfalso
      apply hne
      rw [hrun]
  | some m =>
    rcases hhc : handleCatch st m with ⟨st2, r2⟩
    have h2 : st2.effects.filter isPersistFx = [] := by
      have := handleCatch_persistFilter st m
      rw [hhc] at this
      rw [this, hloop]
    cases r2 with
    | none =>
      have hrun : runTurn true userId userMessage store0 duringTouches events t0 tEnd
          outcomes =
        ({ effects := st2.effects, finalText := st2.responseText,
           outcome := TurnOutcome.caught m },
         applyTouches duringTouches (consumeTaskTouches userId store0).2) := by
        simp only [runTurn, hre, hhc]
      constructor
      · intro hsucc
        exfalso
        rw [hrun] at hsucc
        cases hsucc
      · intro _
        rw [hrun]
        exact h2
    | some m2 =>
      have hrun : runTurn true userId userMessage store0 duringTouches events t0 tEnd
          outcomes =
        ({ effects := st2.effects, finalText := st2.responseText,
           outcome := TurnOutcome.rethrown m m2 },
         applyTouches duringTouches (consumeTaskTouches userId store0).2) := by
        simp only [runTurn, hre, hhc]
      constructor
      · intro hsucc
        exfalso
        rw [hrun] at hsucc
        cases hsucc
      · intro _
        rw [hrun]
        exact h2

theorem typingKeepalive_responseText (st : RunState) (t : Nat) :
    (typingKeepalive st t).responseText = st.responseText := by
  rw [typingKeepalive]
  split <;> rfl

theorem typingKeepalive_sentMessage (st : RunState) (t : Nat) :
    (typingKeepalive st t).sentMessage = st.sentMessage := by
  rw [typingKeepalive]
  split <;> rfl

theorem typingKeepalive_outcomes (st : RunState) (t : Nat) :
    (typingKeepalive st t).outcomes = st.outcomes := by
  rw [typingKeepalive]
  split <;> rfl

theorem typingKeepalive_messageFilter (st : RunState) (t : Nat) :
    (typingKeepalive st t).effects.filter isMessageFx = st.effects.filter isMessageFx := by
  rw [typingKeepalive]
  split
  · simp [List.filter_append, isMessageFx]
  · rfl

theorem jsTrim_empty : jsTrim "" = "" := rfl

/-- Events that leave an empty, unsent render state untouched: no
text deltas, no terminal event, and any `message_end` whose embedded
message yields no assistant text. -/
def benignEvent : AgEvent → Prop
  | .message_update (.text_delta _) => False
  | .agent_end _ _ => False
  | .message_end m => jsTrim (extractAssistantTextFromMessage m) = ""
  | _ => True

theorem stepEvent_benign (st : RunState) (e : AgEvent) (t : Nat)
    (h1 : st.responseText = "") (h2 : st.sentMessage = false) (hb : benignEvent e) :
    stepEvent st e t = (typingKeepalive st t, none) := by
  cases e with
  | message_update inner =>
    cases inner with
    | text_delta d => exact False.elim hb
    | otherAsst => rfl
  | message_end m =>
    have hb2 : jsTrim (extractAssistantTextFromMessage m) = "" := hb
    simp only [stepEvent, typingKeepalive_responseText, h1, jsTrim_empty, hb2]
    simp
  | tool_execution_start name =>
    simp only [stepEvent, typingKeepalive_sentMessage, h2]
    simp
  | agent_end msgs err => exact False.elim hb
  | otherEvent => rfl

theorem runEvents_benign (es : List (AgEvent × Nat)) :
    ∀ st : RunState, st.responseText = "" → st.sentMessage = false →
      (∀ p ∈ es, benignEvent p.1) →
      (runEvents st es).2 = none ∧
      (runEvents st es).1.responseText = "" ∧
      (runEvents st es).1.sentMessage = false ∧
      (runEvents st es).1.outcomes = st.outcomes ∧
      (runEvents st es).1.effects.filter isMessageFx = st.effects.filter isMessageFx := by
  induction es with
  | nil => intro st hrt hsm _; exact ⟨rfl, hrt, hsm, rfl, rfl⟩
  | cons p rest ih =>
    intro st hrt hsm hb
    obtain ⟨e, t⟩ := p
    have hbe : benignEvent e := hb (e, t) (List.mem_cons_self _ _)
    have hstep := stepEvent_benign st e t hrt hsm hbe
    rw [runEvents, hstep]
    have hih := ih (typingKeepalive st t)
      (by rw [typingKeepalive_responseText]; exact hrt)
      (by rw [typingKeepalive_sentMessage]; exact hsm)
      (fun q hq => hb q (List.mem_cons_of_mem _ hq))
    refine ⟨hih.1, hih.2.1, hih.2.2.1, ?_, ?_⟩
    · rw [hih.2.2.2.1, typingKeepalive_outcomes]
    · rw [hih.2.2.2.2, typingKeepalive_messageFilter]

theorem runEvents_append (l1 l2 : List (AgEvent × Nat)) :
    ∀ st : RunState, runEvents st (l1 ++ l2) =
      match runEvents st l1 with
      | (st1, none) => runEvents st1 l2
      | (st1, some m) => (st1, some m) := by
  induction l1 with
  | nil => intro st; rfl
  | cons p rest ih =>
    intro st
    obtain ⟨e, t⟩ := p
    rw [List.cons_append, runEvents, runEvents]
    cases stepEvent st e t with
    | mk st2 thrown =>
      cases thrown with
      | none => exact ih st2
      | some m => rfl

theorem finalizeTurn_messageFilter (memoryEnabled : Bool) (userId userMessage : String)
    (store : TouchStore) (tEnd : Int) (st : RunState) :
    (finalizeTurn memoryEnabled userId userMessage store tEnd st).1.effects.filter isMessageFx =
      st.effects.filter isMessageFx := by
  simp only [finalizeTurn]
  repeat' split
  all_goals
    simp [List.filter_append, List.filter_map, isMessageFx, Function.comp,
      List.filter_cons]

/-- The `agent_end` iteration from an empty, unsent state with an
accepting transport: recover the fallback text and create the
message. -/
theorem stepEvent_agent_end_fallback (st : RunState) (msgs : List JVal)
    (err : Option String) (t : Nat)
    (h1 : st.responseText = "") (h2 : st.sentMessage = false)
    (hfb : jsTrim (extractAssistantTextFromAgentEnd msgs) ≠ "")
    (hok : st.outcomes.headD .ok = .ok) :
    stepEvent st (.agent_end msgs err) t =
      ({ typingKeepalive st t with
          responseText := extractAssistantTextFromAgentEnd msgs
          outcomes := (typingKeepalive st t).outcomes.tail
          effects := (typingKeepalive st t).effects ++
            [.createMessage
              (formatForTransport (extractAssistantTextFromAgentEnd msgs)).1
              (formatForTransport (extractAssistantTextFromAgentEnd msgs)).2] }, none) := by
  have hoc : (typingKeepalive st t).outcomes = st.outcomes := typingKeepalive_outcomes st t
  simp [stepEvent, typingKeepalive_responseText, typingKeepalive_sentMessage, h1, h2,
    jsTrim_empty, createCall, hfb, hoc, hok]
  have hok2 : st.outcomes.head?.getD TransportOutcome.ok = TransportOutcome.ok := by
    simpa using hok
  rw [hok2]

/-- C8 (amended).  For every turn with zero `text_delta` events (and
no earlier event carrying recoverable assistant text) whose terminal
event's backward scan of the embedded message list — most recent
entry with role assistant and non-blank concatenated text segments —
yields "Done.", with an accepting transport the renderer recovers
that text, the turn succeeds, its final text is "Done.", and the last
outbound message call of the turn creates a message with text "Done."
(no spans), not an empty message. -/
theorem fallback_rendering (es : List (AgEvent × Nat)) (msgs : List JVal)
    (err : Option String) (t t0 : Nat) (tEnd : Int) (memoryEnabled : Bool)
    (userId userMessage : String) (store0 : TouchStore)
    (duringTouches : List TouchCall) (outcomes : List TransportOutcome)
    (hben : ∀ p ∈ es, benignEvent p.1)
    (hfb : extractAssistantTextFromAgentEnd msgs = "Done.")
    (hok : ∀ o ∈ outcomes, o = TransportOutcome.ok) :
    (runTurn memoryEnabled userId userMessage store0 duringTouches
      (es ++ [(.agent_end msgs err, t)]) t0 tEnd outcomes).1.finalText = "Done." ∧
    (runTurn memoryEnabled userId userMessage store0 duringTouches
      (es ++ [(.agent_end msgs err, t)]) t0 tEnd outcomes).1.outcome =
      TurnOutcome.success ∧
    lastMessageFx (runTurn memoryEnabled userId userMessage store0 duringTouches
      (es ++ [(.agent_end msgs err, t)]) t0 tEnd outcomes).1.effects =
      some (.createMessage "Done." []) := by
  have h0 := runEvents_benign es (initialRunState t0 outcomes) rfl rfl hben
  rcases hre : runEvents (initialRunState t0 outcomes) es with ⟨st1, thr⟩
  rw [hre] at h0
  obtain ⟨hthr, hrt1, hsm1, hoc1, hmf1⟩ := h0
  subst hthr
  have hfb2 : jsTrim (extractAssistantTextFromAgentEnd msgs) ≠ "" := by
    rw [hfb]
    decide
  have hok2 : st1.outcomes.headD TransportOutcome.ok = TransportOutcome.ok := by
    rw [hoc1]
    cases houts : outcomes with
    | nil => rfl
    | cons o rest =>
      have ho : o = TransportOutcome.ok := hok o (by rw [houts]; exact List.mem_cons_self o rest)
      show (o :: rest).headD TransportOutcome.ok = TransportOutcome.ok
      rw [show (o :: rest).headD TransportOutcome.ok = o from rfl, ho]
  have hstep := stepEvent_agent_end_fallback st1 msgs err t hrt1 hsm1 hfb2 hok2
  have hs1 : (stepEvent st1 (.agent_end msgs err) t).1.responseText =
      extractAssistantTextFromAgentEnd msgs := by rw [hstep]
  have hs2 : (stepEvent st1 (.agent_end msgs err) t).2 = none := by rw [hstep]
  have hs3 : (stepEvent st1 (.agent_end msgs err) t).1.effects =
      (typingKeepalive st1 t).effects ++
        [.createMessage
          (formatForTransport (extractAssistantTextFromAgentEnd msgs)).1
          (formatForTransport (extractAssistantTextFromAgentEnd msgs)).2] := by rw [hstep]
  have hall : runEvents (initialRunState t0 outcomes)
      (es ++ [(.agent_end msgs err, t)]) =
      ((stepEvent st1 (.agent_end msgs err) t).1, none) := by
    rw [runEvents_append, hre]
    simp only [runEvents]
    rcases hsp : stepEvent st1 (AgEvent.agent_end msgs err) t with ⟨st2, thr2⟩
    rw [hsp] at hs2
    simp only at hs2
    subst hs2
    rfl
  have hfmt : formatForTransport "Done." = ("Done.", []) := by decide
  have hmsgfilter : (stepEvent st1 (.agent_end msgs err) t).1.effects.filter isMessageFx =
      [Effect.createMessage "Done." []] := by
    rw [hs3, hfb, hfmt, List.filter_append, typingKeepalive_messageFilter, hmf1]
    rfl
  refine ⟨?_, ?_, ?_⟩
  · simp only [runTurn, hall]
    rw [finalizeTurn_responseText, hs1, hfb]
  · simp only [runTurn, hall]
  · simp only [runTurn, hall, lastMessageFx]
    rw [finalizeTurn_messageFilter, hmsgfilter]
    rfl

/-- An agent message object with role assistant and plain string
content. -/
def asstMsg (s : String) : JVal :=
  .obj [("role", .str "assistant"), ("content", .str s)]

/-- Witness for C8 (amended): a turn with only the terminal event,
whose message list holds one assistant message "Done.". -/
theorem fallback_rendering_witness :
    (runTurn false "u1" "hello" [] [] ([] ++ [(.agent_end [asstMsg "Done."] none, 0)])
      0 1 []).1.finalText = "Done." ∧
    (runTurn false "u1" "hello" [] [] ([] ++ [(.agent_end [asstMsg "Done."] none, 0)])
      0 1 []).1.outcome = TurnOutcome.success ∧
    lastMessageFx (runTurn false "u1" "hello" [] []
      ([] ++ [(.agent_end [asstMsg "Done."] none, 0)]) 0 1 []).1.effects =
      some (.createMessage "Done." []) :=
  fallback_rendering [] [asstMsg "Done."] none 0 0 1 false "u1" "hello" [] [] []
    (fun p hp => absurd hp (List.not_mem_nil p)) (by decide)
    (fun o ho => absurd ho (List.not_mem_nil o))

/-- C8 counterexample: with zero `text_delta` events and a terminal
message list that *contains* an assistant message with text "Done."
but whose most recent assistant entry says "Other", the rendered
final output is "Other", not "Done." — the backward scan takes the
most recent assistant text, so the claim as stated (mere containment
of "Done.") fails. -/
theorem fallback_rendering_counterexample :
    (∃ m ∈ [asstMsg "Done.", asstMsg "Other"],
      extractAssistantTextFromMessage (some m) = "Done.") ∧
    (runTurn false "u1" "hello" [] []
      [(.agent_end [asstMsg "Done.", asstMsg "Other"] none, 0)] 0 1 []).1.finalText =
      "Other" ∧
    (runTurn false "u1" "hello" [] []
      [(.agent_end [asstMsg "Done.", asstMsg "Other"] none, 0)] 0 1 []).1.finalText ≠
      "Done." := by
  refine ⟨⟨asstMsg "Done.", List.mem_cons_self _ _, rfl⟩, ?_, ?_⟩
  · rfl
  · decide

/-- C2 counterexample: a turn whose final edit is rejected by the
transport renders the error only — the transcript is not persisted
and no touch-correlated note is appended, although memory is enabled
and a task was touched during the turn. -/
theorem turn_end_persistence_counterexample :
    (runTurn true "u1" "do it" []
      [{ userId := "u1", taskId := "task_a", action := .update_task,
         touchedAt := "2024-01-01T00:00:00.000Z" }]
      [(.message_update (.text_delta "hi"), 1500), (.agent_end [] none, 2000)]
      0 99 [.ok, .reject "boom", .ok]).1.outcome = TurnOutcome.caught "boom" ∧
    (runTurn true "u1" "do it" []
      [{ userId := "u1", taskId := "task_a", action := .update_task,
         touchedAt := "2024-01-01T00:00:00.000Z" }]
      [(.message_update (.text_delta "hi"), 1500), (.agent_end [] none, 2000)]
      0 99 [.ok, .reject "boom", .ok]).1.effects.filter isPersistFx = [] ∧
    (consumeTaskTouches "u1" (applyTouches
      [{ userId := "u1", taskId := "task_a", action := .update_task,
         touchedAt := "2024-01-01T00:00:00.000Z" }]
      (consumeTaskTouches "u1" ([] : TouchStore)).2)).1 ≠ [] := by
  refine ⟨rfl, rfl, ?_⟩
  decide

/-- Witness for C2 (amended), both sides: a successful turn persists
transcript, memory entry and the touched task's note in that order; a
failing turn persists nothing. -/
theorem turn_end_persistence_witness :
    ((runTurn true "u1" "do it" []
        [{ userId := "u1", taskId := "task_a", action := .update_task,
           touchedAt := "2024-01-01T00:00:00.000Z" }]
        [(.message_update (.text_delta "ok"), 1500), (.agent_end [] none, 2000)]
        0 99 [.ok, .ok]).1.effects.filter isPersistFx =
      Effect.appendTranscriptFx
          [{ role := Role.user, content := "do it", timestamp := 99 },
           { role := Role.assistant,
             content := jsTrim (runTurn true "u1" "do it" []
               [{ userId := "u1", taskId := "task_a", action := .update_task,
                  touchedAt := "2024-01-01T00:00:00.000Z" }]
               [(.message_update (.text_delta "ok"), 1500), (.agent_end [] none, 2000)]
               0 99 [.ok, .ok]).1.finalText, timestamp := 99 }] ::
        Effect.appendMemoryFx "do it"
          (jsTrim (runTurn true "u1" "do it" []
            [{ userId := "u1", taskId := "task_a", action := .update_task,
               touchedAt := "2024-01-01T00:00:00.000Z" }]
            [(.message_update (.text_delta "ok"), 1500), (.agent_end [] none, 2000)]
            0 99 [.ok, .ok]).1.finalText) ::
        (consumeTaskTouches "u1" (applyTouches
          [{ userId := "u1", taskId := "task_a", action := .update_task,
             touchedAt := "2024-01-01T00:00:00.000Z" }]
          (consumeTaskTouches "u1" ([] : TouchStore)).2)).1.map (fun t =>
          Effect.appendTaskNoteFx t.taskId
            (buildTaskProgressNote "do it" (runTurn true "u1" "do it" []
              [{ userId := "u1", taskId := "task_a", action := .update_task,
                 touchedAt := "2024-01-01T00:00:00.000Z" }]
              [(.message_update (.text_delta "ok"), 1500), (.agent_end [] none, 2000)]
              0 99 [.ok, .ok]).1.finalText ++
              "\n\nSource action: " ++ actionName t.action))) ∧
    (runTurn true "u1" "do it" []
      [{ userId := "u1", taskId := "task_a", action := .update_task,
         touchedAt := "2024-01-01T00:00:00.000Z" }]
      [(.message_update (.text_delta "bad"), 1500), (.agent_end [] none, 2000)]
      0 99 [.ok, .reject "nope", .ok]).1.effects.filter isPersistFx = [] :=
  ⟨(turn_end_persistence "u1" "do it" []
      [{ userId := "u1", taskId := "task_a", action := .update_task,
         touchedAt := "2024-01-01T00:00:00.000Z" }]
      [(.message_update (.text_delta "ok"), 1500), (.agent_end [] none, 2000)]
      0 99 [.ok, .ok]).1 (by decide) (by decide),
   (turn_end_persistence "u1" "do it" []
      [{ userId := "u1", taskId := "task_a", action := .update_task,
         touchedAt := "2024-01-01T00:00:00.000Z" }]
      [(.message_update (.text_delta "bad"), 1500), (.agent_end [] none, 2000)]
      0 99 [.ok, .reject "nope", .ok]).2 (by decide)⟩

/-! ### Event Bridge (src/agent/agent.ts, the async generator in prompt)

The generator keeps an `eventQueue`, a single wake-up slot
`resolveWait` and a `done` flag.  The subscribe callback pushes an
event, resolves a pending `resolveWait` (modelled by clearing
`parked`) and sets `done` on `agent_end`; the `.catch` handler of
`agent.prompt(message)` pushes a synthesized `agent_end` carrying the
error message and sets `done` — but does not resolve `resolveWait`.
The consumer loop (`while (!done || eventQueue.length > 0)`) yields
the queue head when available, exits when the queue is empty and
`done` holds, and otherwise parks on a fresh promise.  The
single-threaded execution is modelled as a sequence of atomic steps. -/

structure BridgeState where
  queue : List AgEvent
  done : Bool
  parked : Bool
  yielded : List AgEvent
  finished : Bool

inductive BridgeStep where
  | deliver (e : AgEvent)
  | reject (msg : String)
  | consume

def isAgentEnd : AgEvent → Bool
  | .agent_end _ _ => true
  | _ => false

/-- The terminal event the `.catch` handler synthesizes:
`{ type: "agent_end", messages: [], error: message }`. -/
def synthEnd (msg : String) : AgEvent := .agent_end [] (some msg)

def bridgeStep (s : BridgeState) (st : BridgeStep) : BridgeState :=
  match st with
  | .deliver e =>
    { s with
        queue := s.queue ++ [e]
        parked := false
        done := s.done || isAgentEnd e }
  | .reject msg =>
    { s with
        queue := s.queue ++ [synthEnd msg]
        done := true }
  | .consume =>
    if s.parked || s.finished then s
    else
      match s.queue with
      | e :: rest => { s with queue := rest, yielded := s.yielded ++ [e] }
      | [] =>
        if s.done then { s with finished := true } else { s with parked := true }

def runBridge (steps : List BridgeStep) (s : BridgeState) : BridgeState :=
  steps.foldl bridgeStep s

def initBridgeState : BridgeState :=
  { queue := [], done := false, parked := false, yielded := [], finished := false }

/-- C4 (code bug).  When the consumer is already parked awaiting the
next event and the producer promise then rejects, the `.catch`
handler queues the synthesized terminal event and sets `done` but
never resolves the pending wait, so no number of further consumer
steps makes progress: the terminal event stays queued, nothing is
ever yielded, and the sequence hangs.  By contrast a rejection
arriving before the consumer parks is delivered — the missing
`resolveWait` call in the `.catch` handler contradicts the
subscribe callback, which does resolve it. -/
theorem bridge_hangs_when_parked (msg : String) (n : Nat) :
    (runBridge [BridgeStep.consume, BridgeStep.reject msg] initBridgeState).parked = true ∧
    (runBridge [BridgeStep.consume, BridgeStep.reject msg] initBridgeState).done = true ∧
    (runBridge [BridgeStep.consume, BridgeStep.reject msg] initBridgeState).queue =
      [synthEnd msg] ∧
    (runBridge [BridgeStep.consume, BridgeStep.reject msg] initBridgeState).yielded = [] ∧
    (runBridge [BridgeStep.consume, BridgeStep.reject msg] initBridgeState).finished = false ∧
    runBridge (List.replicate n BridgeStep.consume)
      (runBridge [BridgeStep.consume, BridgeStep.reject msg] initBridgeState) =
      runBridge [BridgeStep.consume, BridgeStep.reject msg] initBridgeState ∧
    (runBridge [BridgeStep.reject msg, BridgeStep.consume, BridgeStep.consume]
      initBridgeState).yielded = [synthEnd msg] ∧
    (runBridge [BridgeStep.reject msg, BridgeStep.consume, BridgeStep.consume]
      initBridgeState).finished = true := by
  refine ⟨rfl, rfl, rfl, rfl, rfl, ?_, rfl, rfl⟩
  induction n with
  | zero => rfl
  | succ m ih =>
    rw [List.replicate_succ, runBridge, List.foldl_cons]
    exact ih
